import Mathlib

/-!
Shallow embedding of the 3D A* pathfinding core of the dwarf-fortress
simulation (src/ai/pathfinding_simple.py together with the tile and world
queries it consumes from src/world/world_state_simple.py and
src/core/config.py), and proofs about the spec's claims over it.

Numeric idealization: the Python code computes with IEEE floats; here
g-costs are exact rationals and every heuristic value is the exact square
root of a natural number (the code only ever takes square roots of
integers), so a node's f-cost is a value of the form `g + Real.sqrt n`.
All comparisons the algorithm performs on such values are decided exactly
by the rational-arithmetic procedure `fLt`, proved below to agree with the
real-number order.
-/

/-- Grid coordinate: Python tuple (x, y, z) of ints. -/
abbrev Pos : Type := ℤ × ℤ × ℤ

namespace Constants

/-- Tile material constant TILE_EMPTY from core/config.py. -/
def TILE_EMPTY : ℤ := 0

/-- Tile material constant TILE_STONE from core/config.py. -/
def TILE_STONE : ℤ := 1

/-- Tile material constant TILE_SOIL from core/config.py. -/
def TILE_SOIL : ℤ := 2

end Constants

/-- The fields of world_state_simple.Tile that the pathfinding code reads
(is_passable and get_movement_cost use only material and water_level; the
remaining Tile fields are never consulted by the pathfinder and are
omitted from the embedding). Defaults are those of the Python dataclass. -/
structure Tile where
  material : ℤ := Constants.TILE_EMPTY
  water_level : ℤ := 0
deriving DecidableEq

instance : Inhabited Tile := ⟨{}⟩

/-- Tile.is_passable: material == TILE_EMPTY or water_level < 7. -/
def Tile.is_passable (t : Tile) : Prop :=
  t.material = Constants.TILE_EMPTY ∨ t.water_level < 7

instance (t : Tile) : Decidable t.is_passable := by
  unfold Tile.is_passable
  infer_instance

/-- The finite value Tile.get_movement_cost returns on passable tiles:
cost = 1.0, plus water_level * 0.5 when water_level > 0, plus 0.2 when
the material is TILE_SOIL. -/
def Tile.movement_cost_val (t : Tile) : ℚ :=
  1 + (if 0 < t.water_level then (t.water_level : ℚ) * (1 / 2) else 0)
    + (if t.material = Constants.TILE_SOIL then 1 / 5 else 0)

/-- Tile.get_movement_cost: float('inf') — here ⊤ — for impassable tiles,
otherwise the finite rational cost. -/
def Tile.get_movement_cost (t : Tile) : WithTop ℚ :=
  if t.is_passable then (t.movement_cost_val : WithTop ℚ) else ⊤

/-- world_state_simple.WorldState, restricted to the data the pathfinder
queries: the square extent `size`, the number of z-levels, and the tile
array (modelled as a total function; get_tile below reproduces the
out-of-bounds defaulting of the source). -/
structure WorldState where
  size : ℤ
  z_levels : ℤ
  tiles : Pos → Tile

/-- WorldState.is_valid_coordinate: 0 <= x < size, 0 <= y < size,
0 <= z < z_levels. -/
def WorldState.is_valid_coordinate (w : WorldState) (x y z : ℤ) : Prop :=
  0 ≤ x ∧ x < w.size ∧ 0 ≤ y ∧ y < w.size ∧ 0 ≤ z ∧ z < w.z_levels

instance (w : WorldState) (x y z : ℤ) : Decidable (w.is_valid_coordinate x y z) := by
  unfold WorldState.is_valid_coordinate
  infer_instance

/-- WorldState.get_tile: returns the stored tile, or a default-constructed
Tile() for out-of-bounds coordinates. -/
def WorldState.get_tile (w : WorldState) (x y z : ℤ) : Tile :=
  if w.is_valid_coordinate x y z then w.tiles (x, y, z) else {}

/-- Exact decision of the order `g1 + sqrt n1 < g2 + sqrt n2` on reals,
by rational arithmetic; this is the comparison PathNode.__lt__ performs on
f_cost values (each f_cost being a rational g-cost plus the square root of
a natural heuristic radicand). Correctness against the real order is the
theorem fLt_iff below. -/
def fLt (g1 : ℚ) (n1 : ℕ) (g2 : ℚ) (n2 : ℕ) : Bool :=
  if (g2 - g1 < 0 ∧ (n2 : ℚ) < (g2 - g1) ^ 2) then
    false
  else if 0 ≤ g2 - g1 then
    decide ((n1 : ℚ) - n2 - (g2 - g1) ^ 2 < 0) ||
      (decide (0 ≤ (n1 : ℚ) - n2 - (g2 - g1) ^ 2) &&
        decide (((n1 : ℚ) - n2 - (g2 - g1) ^ 2) ^ 2 < 4 * (g2 - g1) ^ 2 * n2))
  else
    decide ((n1 : ℚ) - n2 - (g2 - g1) ^ 2 < 0) &&
      decide (4 * (g2 - g1) ^ 2 * n2 < ((n1 : ℚ) - n2 - (g2 - g1) ^ 2) ^ 2)

/-- Auxiliary: for rationals d with d + sqrt n2 nonnegative, squaring
characterizes the comparison sqrt n1 < d + sqrt n2. -/
theorem sqrt_lt_add_sqrt_iff (d : ℚ) (n1 n2 : ℕ)
    (h : (0 : ℝ) ≤ (d : ℝ) + Real.sqrt n2) :
    (Real.sqrt n1 < (d : ℝ) + Real.sqrt n2) ↔
      ((n1 : ℝ) - n2 - (d : ℝ) ^ 2 < 2 * d * Real.sqrt n2) := by
  have hs2 : Real.sqrt n2 ^ 2 = (n2 : ℝ) := Real.sq_sqrt (by positivity)
  have hs1 : Real.sqrt n1 ^ 2 = (n1 : ℝ) := Real.sq_sqrt (by positivity)
  have hs1n : (0 : ℝ) ≤ Real.sqrt n1 := Real.sqrt_nonneg _
  constructor
  · intro hlt
    have hsq : (n1 : ℝ) < ((d : ℝ) + Real.sqrt n2) ^ 2 := by nlinarith
    nlinarith
  · intro hlt
    have hsq : (n1 : ℝ) < ((d : ℝ) + Real.sqrt n2) ^ 2 := by nlinarith
    have h2 := Real.sqrt_lt_sqrt (by positivity : (0 : ℝ) ≤ (n1 : ℝ)) hsq
    rwa [Real.sqrt_sq h] at h2

/-- Correctness of fLt: it decides the real-number order of the two
f-cost values g1 + sqrt n1 and g2 + sqrt n2. -/
theorem fLt_iff (g1 : ℚ) (n1 : ℕ) (g2 : ℚ) (n2 : ℕ) :
    fLt g1 n1 g2 n2 = true ↔
      (g1 : ℝ) + Real.sqrt n1 < (g2 : ℝ) + Real.sqrt n2 := by
  have key : ((g1 : ℝ) + Real.sqrt n1 < (g2 : ℝ) + Real.sqrt n2) ↔
      (Real.sqrt n1 < ((g2 - g1 : ℚ) : ℝ) + Real.sqrt n2) := by
    push_cast
    constructor <;> intro h <;> linarith
  rw [key]
  have hs2 : Real.sqrt n2 ^ 2 = (n2 : ℝ) := Real.sq_sqrt (by positivity)
  have hs2n : (0 : ℝ) ≤ Real.sqrt n2 := Real.sqrt_nonneg _
  by_cases hneg : g2 - g1 < 0 ∧ (n2 : ℚ) < (g2 - g1) ^ 2
  · rw [fLt, if_pos hneg]
    obtain ⟨hdneg, hn2⟩ := hneg
    have hdR : (((g2 - g1 : ℚ) : ℝ)) < 0 := by exact_mod_cast hdneg
    have hn2R : ((n2 : ℕ) : ℝ) < ((g2 - g1 : ℚ) : ℝ) ^ 2 := by exact_mod_cast hn2
    have hs : Real.sqrt n2 < -((g2 - g1 : ℚ) : ℝ) := by
      have h0 : (0 : ℝ) ≤ -((g2 - g1 : ℚ) : ℝ) := by linarith
      have h2 := Real.sqrt_lt_sqrt (by positivity : (0:ℝ) ≤ ((n2:ℕ):ℝ))
        (show ((n2:ℕ):ℝ) < (-((g2 - g1 : ℚ):ℝ)) ^ 2 by nlinarith)
      rwa [Real.sqrt_sq h0] at h2
    simp only [Bool.false_eq_true, false_iff, not_lt]
    have h4 := Real.sqrt_nonneg (n1 : ℝ)
    linarith
  · rw [fLt, if_neg hneg]
    have hpos : (0 : ℝ) ≤ ((g2 - g1 : ℚ) : ℝ) + Real.sqrt n2 := by
      rcases le_or_lt 0 (g2 - g1) with hd0 | hd0
      · have hh : (0:ℝ) ≤ ((g2 - g1 : ℚ):ℝ) := by exact_mod_cast hd0
        linarith
      · have hn2 : (g2 - g1) ^ 2 ≤ (n2 : ℚ) := by
          by_contra hc
          exact hneg ⟨hd0, lt_of_not_le hc⟩
        have hn2R : (((g2 - g1 : ℚ) : ℝ)) ^ 2 ≤ ((n2 : ℕ) : ℝ) := by exact_mod_cast hn2
        have hdR : ((g2 - g1 : ℚ) : ℝ) < 0 := by exact_mod_cast hd0
        have h2 : -((g2 - g1 : ℚ) : ℝ) ≤ Real.sqrt n2 := by
          have h3 := Real.sqrt_le_sqrt hn2R
          rwa [Real.sqrt_sq_eq_abs, abs_of_nonpos hdR.le] at h3
        linarith
    rw [sqrt_lt_add_sqrt_iff (g2 - g1) n1 n2 hpos]
    have heR : (((n1 : ℚ) - n2 - (g2 - g1) ^ 2 : ℚ) : ℝ)
        = (n1 : ℝ) - (n2 : ℝ) - ((g2 - g1 : ℚ) : ℝ) ^ 2 := by
      push_cast
      ring
    rcases le_or_lt 0 (g2 - g1) with hd0 | hd0
    · have hdR : (0:ℝ) ≤ ((g2 - g1 : ℚ):ℝ) := by exact_mod_cast hd0
      have hb : (0:ℝ) ≤ 2 * ((g2 - g1 : ℚ):ℝ) * Real.sqrt n2 := by positivity
      rw [if_pos hd0]
      simp only [Bool.or_eq_true, Bool.and_eq_true, decide_eq_true_eq]
      constructor
      · rintro (h1 | ⟨h1, h2⟩)
        · have h1R : ((n1:ℝ) - n2 - ((g2 - g1 : ℚ):ℝ) ^ 2) < 0 := by
            rw [← heR]
            exact_mod_cast h1
          linarith
        · have h1R : (0:ℝ) ≤ (n1:ℝ) - n2 - ((g2 - g1 : ℚ):ℝ) ^ 2 := by
            rw [← heR]
            exact_mod_cast h1
          have h2R : ((n1:ℝ) - n2 - ((g2 - g1 : ℚ):ℝ) ^ 2) ^ 2
              < 4 * ((g2 - g1 : ℚ):ℝ) ^ 2 * n2 := by
            rw [← heR]
            exact_mod_cast h2
          nlinarith [hs2, hb, h1R, h2R]
      · intro h1
        rcases lt_or_le ((n1 : ℚ) - n2 - (g2 - g1) ^ 2) 0 with h2 | h2
        · exact Or.inl h2
        · refine Or.inr ⟨h2, ?_⟩
          have h2R : (0:ℝ) ≤ (n1:ℝ) - n2 - ((g2 - g1 : ℚ):ℝ) ^ 2 := by
            rw [← heR]
            exact_mod_cast h2
          have hsum : (0:ℝ) < 2 * ((g2 - g1 : ℚ):ℝ) * Real.sqrt n2
              + ((n1:ℝ) - n2 - ((g2 - g1 : ℚ):ℝ) ^ 2) := by
            rcases eq_or_lt_of_le h2R with he0 | he0
            · linarith
            · linarith
          have h3 : ((n1:ℝ) - n2 - ((g2 - g1 : ℚ):ℝ) ^ 2) ^ 2
              < 4 * ((g2 - g1 : ℚ):ℝ) ^ 2 * n2 := by
            nlinarith [hs2, h1, hsum]
          rw [← heR] at h3
          exact_mod_cast h3
    · have hdR : ((g2 - g1 : ℚ):ℝ) < 0 := by exact_mod_cast hd0
      have hb : 2 * ((g2 - g1 : ℚ):ℝ) * Real.sqrt n2 ≤ 0 := by
        have h5 := mul_nonneg (show (0:ℝ) ≤ -(2 * ((g2 - g1 : ℚ):ℝ)) by linarith) hs2n
        nlinarith [h5]
      rw [if_neg (not_le.mpr hd0)]
      simp only [Bool.and_eq_true, decide_eq_true_eq]
      constructor
      · rintro ⟨h1, h2⟩
        have h1R : ((n1:ℝ) - n2 - ((g2 - g1 : ℚ):ℝ) ^ 2) < 0 := by
          rw [← heR]
          exact_mod_cast h1
        have h2R : 4 * ((g2 - g1 : ℚ):ℝ) ^ 2 * n2
            < ((n1:ℝ) - n2 - ((g2 - g1 : ℚ):ℝ) ^ 2) ^ 2 := by
          rw [← heR]
          exact_mod_cast h2
        nlinarith [hs2, hb, h1R, h2R]
      · intro h1
        have h1R : ((n1:ℝ) - n2 - ((g2 - g1 : ℚ):ℝ) ^ 2) < 0 := by linarith
        have hsum : ((n1:ℝ) - n2 - ((g2 - g1 : ℚ):ℝ) ^ 2)
            + 2 * ((g2 - g1 : ℚ):ℝ) * Real.sqrt n2 < 0 := by linarith
        have h2R : 4 * ((g2 - g1 : ℚ):ℝ) ^ 2 * n2
            < ((n1:ℝ) - n2 - ((g2 - g1 : ℚ):ℝ) ^ 2) ^ 2 := by
          nlinarith [hs2, h1, hsum]
        constructor
        · rw [← heR] at h1R
          exact_mod_cast h1R
        · rw [← heR] at h2R
          exact_mod_cast h2R

/-- PathNode of pathfinding_simple.py. The Python node stores g_cost,
h_cost and f_cost = g_cost + h_cost as floats; here g_cost is the exact
rational and h_cost is the natural radicand of the heuristic square root,
so the node's f_cost is the real number g_cost + sqrt h_cost, represented
by the pair (g_cost, h_cost). The source keeps f_cost equal to
g_cost + h_cost at every point where a comparison can observe it (it is
reassigned immediately after every g_cost write), so representing f_cost
as the derived pair is faithful. parent is an index into the per-search
node arena (Python holds an object reference). -/
structure PathNode where
  position : Pos
  g_cost : ℚ
  h_cost : ℕ
  parent : Option ℕ := none
deriving DecidableEq

instance : Inhabited PathNode := ⟨⟨(0, 0, 0), 0, 0, none⟩⟩

/-- Totalized arena read; every index the algorithm uses is in range. -/
def getNode (store : List PathNode) (i : ℕ) : PathNode :=
  store.getD i default

/-- PathNode.__lt__ compares f_cost values; for arena indices i and j this
is the exact comparison of g_i + sqrt h_i against g_j + sqrt h_j. -/
def nodeLt (store : List PathNode) (i j : ℕ) : Bool :=
  fLt (getNode store i).g_cost (getNode store i).h_cost
    (getNode store j).g_cost (getNode store j).h_cost

/-- CPython heapq._siftdown(heap, startpos, pos): moves newitem (already
conceptually at index pos) toward the root, shifting larger parents down,
and finally writes newitem at its resting place. The extra fuel argument
makes the recursion structural; the loop decreases pos by at least one
per pass, so the initial fuel pos (used by every caller) is never
exhausted and the fuel-out case is unreachable. -/
def siftdownGo (lt : ℕ → ℕ → Bool) (newitem startpos : ℕ) :
    ℕ → List ℕ → ℕ → List ℕ
  | 0, heap, pos => heap.set pos newitem
  | fuel + 1, heap, pos =>
    if startpos < pos then
      if lt newitem (heap.getD ((pos - 1) / 2) 0) = true then
        siftdownGo lt newitem startpos fuel
          (heap.set pos (heap.getD ((pos - 1) / 2) 0)) ((pos - 1) / 2)
      else
        heap.set pos newitem
    else
      heap.set pos newitem

/-- CPython heapq._siftup(heap, pos): sinks the hole at pos to a leaf,
always choosing the smaller child, then restores with _siftdown. Fueled
like siftdownGo; pos at least doubles per pass while staying below
endpos, so the initial fuel endpos is never exhausted (the fuel-out case
coincides with the loop-exit behavior in any case). -/
def siftupGo (lt : ℕ → ℕ → Bool) (newitem startpos endpos : ℕ) :
    ℕ → List ℕ → ℕ → List ℕ
  | 0, heap, pos => siftdownGo lt newitem startpos pos (heap.set pos newitem) pos
  | fuel + 1, heap, pos =>
    if 2 * pos + 1 < endpos then
      if 2 * pos + 2 < endpos ∧
          lt (heap.getD (2 * pos + 1) 0) (heap.getD (2 * pos + 2) 0) = false then
        siftupGo lt newitem startpos endpos fuel
          (heap.set pos (heap.getD (2 * pos + 2) 0)) (2 * pos + 2)
      else
        siftupGo lt newitem startpos endpos fuel
          (heap.set pos (heap.getD (2 * pos + 1) 0)) (2 * pos + 1)
    else
      siftdownGo lt newitem startpos pos (heap.set pos newitem) pos

/-- CPython heapq.heappush: append, then sift the new item up from the
last index. -/
def heappush (lt : ℕ → ℕ → Bool) (heap : List ℕ) (item : ℕ) : List ℕ :=
  siftdownGo lt item 0 heap.length (heap ++ [item]) heap.length

/-- CPython heapq.heappop: pop the last element; if the heap is still
nonempty, save the root as the return value, move the last element to the
root and sift it down. Returns none on an empty heap (the Python loop
guard prevents that call). -/
def heappop (lt : ℕ → ℕ → Bool) (heap : List ℕ) : Option (ℕ × List ℕ) :=
  match heap.getLast? with
  | none => none
  | some lastelt =>
    let rest := heap.dropLast
    if rest.isEmpty then
      some (lastelt, [])
    else
      some (rest.getD 0 0, siftupGo lt lastelt 0 rest.length rest.length (rest.set 0 lastelt) 0)

/-- AStarPathfinder of pathfinding_simple.py: the terrain it queries, the
iteration budget, and the bounded FIFO path cache. The Python dict is an
insertion-ordered association list; cache_max_size is hardwired to 1000 in
__init__ and max_iterations defaults to 1000. -/
structure AStarPathfinder where
  world_state : WorldState
  max_iterations : ℤ := 1000
  path_cache : List ((Pos × Pos) × List Pos) := []
  cache_max_size : ℕ := 1000

/-- AStarPathfinder._is_valid_position. -/
def AStarPathfinder.isValidPosition (pf : AStarPathfinder) (p : Pos) : Prop :=
  pf.world_state.is_valid_coordinate p.1 p.2.1 p.2.2

instance (pf : AStarPathfinder) (p : Pos) : Decidable (pf.isValidPosition p) := by
  unfold AStarPathfinder.isValidPosition
  infer_instance

/-- AStarPathfinder._is_passable: the tile at the position (out-of-bounds
reads yield a default tile, which is passable) can be moved through. -/
def AStarPathfinder.isPassable (pf : AStarPathfinder) (p : Pos) : Prop :=
  (pf.world_state.get_tile p.1 p.2.1 p.2.2).is_passable

instance (pf : AStarPathfinder) (p : Pos) : Decidable (pf.isPassable p) := by
  unfold AStarPathfinder.isPassable
  infer_instance

/-- AStarPathfinder._can_move_vertically: the destination tile must be
passable (the from-tile is read by the source but not used). -/
def AStarPathfinder.canMoveVertically (pf : AStarPathfinder) (from_pos to_pos : Pos) : Prop :=
  (pf.world_state.get_tile to_pos.1 to_pos.2.1 to_pos.2.2).is_passable

instance (pf : AStarPathfinder) (a b : Pos) : Decidable (pf.canMoveVertically a b) := by
  unfold AStarPathfinder.canMoveVertically
  infer_instance

/-- The eight same-z neighbor offsets, in the order the source lists them. -/
def horizontalOffsets : List (ℤ × ℤ) :=
  [(-1, 0), (1, 0), (0, -1), (0, 1), (-1, -1), (-1, 1), (1, -1), (1, 1)]

/-- AStarPathfinder._get_neighbors: the in-bounds horizontal neighbors in
offset order, then up one z-level, then down one z-level, the vertical
moves gated by _can_move_vertically and the z extent. -/
def AStarPathfinder.getNeighbors (pf : AStarPathfinder) (position : Pos) : List Pos :=
  let x := position.1
  let y := position.2.1
  let z := position.2.2
  let horiz := horizontalOffsets.filterMap (fun d =>
    let new_pos : Pos := (x + d.1, y + d.2, z)
    if pf.isValidPosition new_pos then some new_pos else none)
  let up : List Pos :=
    if z < pf.world_state.z_levels - 1 ∧ pf.canMoveVertically position (x, y, z + 1)
    then [(x, y, z + 1)] else []
  let down : List Pos :=
    if 0 < z ∧ pf.canMoveVertically position (x, y, z - 1)
    then [(x, y, z - 1)] else []
  horiz ++ up ++ down

/-- AStarPathfinder._get_movement_cost: the destination tile's
movement cost, times 1.414 for a diagonal horizontal displacement, times
2.0 for a z change (float inf is ⊤). -/
def AStarPathfinder.getMovementCost (pf : AStarPathfinder) (from_pos to_pos : Pos) : WithTop ℚ :=
  let base := (pf.world_state.get_tile to_pos.1 to_pos.2.1 to_pos.2.2).get_movement_cost
  let dx := (to_pos.1 - from_pos.1).natAbs
  let dy := (to_pos.2.1 - from_pos.2.1).natAbs
  let dz := (to_pos.2.2 - from_pos.2.2).natAbs
  let c1 := if 1 < dx + dy then base * ((707 : ℚ) / 500 : ℚ) else base
  if 0 < dz then c1 * 2 else c1

/-- The finite value of _get_movement_cost, used inside the search where
the destination has already passed the passability guard (impassable
destinations are skipped at line 79 of the source before any cost is
computed, so the inf branch of get_movement_cost is unreachable there;
edge_cost_eq_getMovementCost below records the agreement). -/
def AStarPathfinder.edge_cost (pf : AStarPathfinder) (from_pos to_pos : Pos) : ℚ :=
  let base := (pf.world_state.get_tile to_pos.1 to_pos.2.1 to_pos.2.2).movement_cost_val
  let dx := (to_pos.1 - from_pos.1).natAbs
  let dy := (to_pos.2.1 - from_pos.2.1).natAbs
  let dz := (to_pos.2.2 - from_pos.2.2).natAbs
  let c1 := if 1 < dx + dy then base * ((707 : ℚ) / 500 : ℚ) else base
  if 0 < dz then c1 * 2 else c1

/-- On passable destinations the two movement-cost functions agree. -/
theorem edge_cost_eq_getMovementCost (pf : AStarPathfinder) (a b : Pos)
    (h : pf.isPassable b) :
    pf.getMovementCost a b = (pf.edge_cost a b : WithTop ℚ) := by
  unfold AStarPathfinder.getMovementCost AStarPathfinder.edge_cost
  unfold AStarPathfinder.isPassable at h
  rw [Tile.get_movement_cost, if_pos h]
  dsimp only
  split <;> split <;> norm_cast

/-- AStarPathfinder._heuristic squares: the source returns
math.sqrt(dx*dx + dy*dy + dz*dz); the radicand is this natural number and
every consumer of the heuristic value treats it as sqrt of it. -/
def heuristicSq (pos1 pos2 : Pos) : ℕ :=
  let dx := (pos1.1 - pos2.1).natAbs
  let dy := (pos1.2.1 - pos2.2.1).natAbs
  let dz := (pos1.2.2 - pos2.2.2).natAbs
  dx * dx + dy * dy + dz * dz

/-- Python dict lookup over the insertion-ordered association list. -/
def lookupPos : List (Pos × ℕ) → Pos → Option ℕ
  | [], _ => none
  | (k, v) :: rest, p => if k = p then some v else lookupPos rest p

/-- State local to one find_path invocation: the node arena, the open-set
heap of arena indices, the node_map dict, and the closed set. -/
structure SearchState where
  store : List PathNode
  open_set : List ℕ
  node_map : List (Pos × ℕ)
  closed_set : List Pos

/-- The body of the neighbor loop of find_path (source lines 78-101):
skip closed or impassable neighbors; otherwise relax. A known neighbor is
updated in place when the tentative g-cost improves on it (no new heap
entry is pushed); an unknown neighbor is appended to the arena, indexed in
node_map and pushed onto the heap. -/
def processNeighbor (pf : AStarPathfinder) (goal : Pos) (curId : ℕ)
    (st : SearchState) (neighbor_pos : Pos) : SearchState :=
  if neighbor_pos ∈ st.closed_set ∨ ¬ pf.isPassable neighbor_pos then
    st
  else
    let cur := getNode st.store curId
    let movement_cost := pf.edge_cost cur.position neighbor_pos
    let tentative_g_cost := cur.g_cost + movement_cost
    match lookupPos st.node_map neighbor_pos with
    | some nid =>
      let nn := getNode st.store nid
      if tentative_g_cost < nn.g_cost then
        { st with store :=
            st.store.set nid { nn with g_cost := tentative_g_cost, parent := some curId } }
      else
        st
    | none =>
      let nid := st.store.length
      let nn : PathNode :=
        { position := neighbor_pos, g_cost := tentative_g_cost,
          h_cost := heuristicSq neighbor_pos goal, parent := some curId }
      let store2 := st.store ++ [nn]
      { store := store2,
        open_set := heappush (nodeLt store2) st.open_set nid,
        node_map := st.node_map ++ [(neighbor_pos, nid)],
        closed_set := st.closed_set }

/-- The parent-link walk of _reconstruct_path, collecting positions from
the goal node back toward the start node; fuel bounds the walk (the
Python loop runs until parent is None, and under the search invariants the
chain is acyclic and shorter than the arena). -/
def walkParents (store : List PathNode) : ℕ → ℕ → List Pos
  | 0, _ => []
  | fuel + 1, i =>
    (getNode store i).position ::
      (match (getNode store i).parent with
       | none => []
       | some j => walkParents store fuel j)

/-- AStarPathfinder._reconstruct_path: walk parent links from the goal
node, then reverse. -/
def reconstructPath (store : List PathNode) (goalId : ℕ) : List Pos :=
  (walkParents store store.length goalId).reverse

/-- The while loop of find_path (source lines 62-101). fuel is the number
of remaining iterations (max_iterations minus the count so far); each pass
pops, lazily discards stale entries, closes the popped position, tests the
goal, and relaxes the neighbors. -/
def searchLoop (pf : AStarPathfinder) (goal : Pos) : ℕ → SearchState → Option (List Pos)
  | 0, _ => none
  | fuel + 1, st =>
    match heappop (nodeLt st.store) st.open_set with
    | none => none
    | some (curId, rest) =>
      let cur := getNode st.store curId
      if cur.position ∈ st.closed_set then
        searchLoop pf goal fuel { st with open_set := rest }
      else
        let st1 : SearchState :=
          { st with open_set := rest, closed_set := cur.position :: st.closed_set }
        if cur.position = goal then
          some (reconstructPath st1.store curId)
        else
          searchLoop pf goal fuel
            ((pf.getNeighbors cur.position).foldl (processNeighbor pf goal curId) st1)

/-- Python dict assignment cache[key] = path: replace in place when the
key exists, else append (insertion order preserved). -/
def dictInsert (cache : List ((Pos × Pos) × List Pos)) (key : Pos × Pos)
    (path : List Pos) : List ((Pos × Pos) × List Pos) :=
  if key ∈ cache.map Prod.fst then
    cache.map (fun kv => if kv.1 = key then (key, path) else kv)
  else
    cache ++ [(key, path)]

/-- AStarPathfinder._cache_path: when the cache has reached
cache_max_size, delete the first-inserted entry (next(iter(dict))), then
store the path. -/
def AStarPathfinder.cachePath (pf : AStarPathfinder) (cache_key : Pos × Pos)
    (path : List Pos) : AStarPathfinder :=
  let cache :=
    if pf.cache_max_size ≤ pf.path_cache.length then pf.path_cache.drop 1
    else pf.path_cache
  { pf with path_cache := dictInsert cache cache_key path }

/-- Python dict membership-and-read for the path cache. -/
def lookupCache : List ((Pos × Pos) × List Pos) → Pos × Pos → Option (List Pos)
  | [], _ => none
  | (k, v) :: rest, key => if k = key then some v else lookupCache rest key

/-- The search state find_path builds before entering the loop (source
lines 45-58): the start node with g_cost 0 and heuristic radicand toward
the goal, alone in the arena, pushed on the heap and indexed in node_map,
with an empty closed set. -/
def initState (start goal : Pos) : SearchState :=
  let start_node : PathNode :=
    { position := start, g_cost := 0, h_cost := heuristicSq start goal, parent := none }
  let store0 : List PathNode := [start_node]
  { store := store0,
    open_set := heappush (nodeLt store0) [] 0,
    node_map := [(start, 0)],
    closed_set := [] }

/-- AStarPathfinder.find_path. Returns the Python return value paired with
the pathfinder state after the call (the call mutates only path_cache).
The cache is consulted first; then the endpoints are validated; then the
A* loop runs with the iteration budget; a found path is cached and
returned, and every other outcome returns None. -/
def AStarPathfinder.find_path (pf : AStarPathfinder) (start goal : Pos) :
    Option (List Pos) × AStarPathfinder :=
  match lookupCache pf.path_cache (start, goal) with
  | some path => (some path, pf)
  | none =>
    if ¬ pf.isValidPosition start ∨ ¬ pf.isValidPosition goal then
      (none, pf)
    else if ¬ pf.isPassable start ∨ ¬ pf.isPassable goal then
      (none, pf)
    else
      match searchLoop pf goal pf.max_iterations.toNat (initState start goal) with
      | some path => (some path, pf.cachePath (start, goal) path)
      | none => (none, pf)

/-- AStarPathfinder.get_cache_size. -/
def AStarPathfinder.get_cache_size (pf : AStarPathfinder) : ℕ :=
  pf.path_cache.length

/-- AStarPathfinder.clear_cache. -/
def AStarPathfinder.clear_cache (pf : AStarPathfinder) : AStarPathfinder :=
  { pf with path_cache := [] }

/-- AStarPathfinder.reinitialize: rebind the world and clear the cache. -/
def AStarPathfinder.reinitialize (pf : AStarPathfinder) (w : WorldState) : AStarPathfinder :=
  { pf with world_state := w, path_cache := [] }

/-- Total edge cost of a coordinate sequence: the sum of edge_cost over
consecutive pairs. -/
def pathCost (pf : AStarPathfinder) : List Pos → ℚ
  | a :: b :: rest => pf.edge_cost a b + pathCost pf (b :: rest)
  | _ => 0

/-- A walk through the 10-connected grid graph: nonempty, every step goes
to a _get_neighbors successor, and every visited cell is passable. -/
def validWalk (pf : AStarPathfinder) : List Pos → Bool
  | [] => false
  | [p] => decide (pf.isValidPosition p) && decide (pf.isPassable p)
  | a :: b :: rest =>
    decide (pf.isValidPosition a) && decide (pf.isPassable a) &&
      decide (b ∈ pf.getNeighbors a) && validWalk pf (b :: rest)

set_option maxRecDepth 8000

/-- A size n, z_levels zc world whose tiles are all default Tile()
(empty material, no water): passable everywhere with movement cost 1. -/
def flatWorld (n zc : ℤ) : WorldState :=
  ⟨n, zc, fun _ => {}⟩

/-- Pathfinder on the flat 5 by 5 by 1 grid of the spec's first example
scenario (max_iterations and cache size at their defaults). -/
def pf5 : AStarPathfinder :=
  { world_state := flatWorld 5 1 }

/-- The 5-element diagonal path of the spec's example scenario. -/
def diagPath5 : List Pos :=
  [(0, 0, 0), (1, 1, 0), (2, 2, 0), (3, 3, 0), (4, 4, 0)]

/-- Pathfinder on a flat 2 by 2 by 1 grid (for the heuristic
admissibility counterexample). -/
def pf2 : AStarPathfinder :=
  { world_state := flatWorld 2 1 }

/-- The impassable cells of the optimality counterexample world: these
cells get material TILE_STONE and water_level 7, so is_passable is false
for them. -/
def wallList : List Pos :=
  [(0, 0, 0), (2, 1, 0), (2, 4, 0), (3, 2, 0), (3, 4, 0), (4, 2, 0)]

/-- A 6 by 6 by 1 world with six impassable cells and uniform cost-1
terrain everywhere else. -/
def world6 : WorldState :=
  ⟨6, 1, fun p => if p ∈ wallList then { material := Constants.TILE_STONE, water_level := 7 } else {}⟩

/-- Pathfinder on world6 with the default iteration budget of 1000. -/
def pf6 : AStarPathfinder :=
  { world_state := world6 }

/-- The path find_path actually returns on world6 from (2,0,0) to
(3,5,0): five moves, all diagonal, total cost 5 * 1.414 = 707/100. -/
def badPath6 : List Pos :=
  [(2, 0, 0), (3, 1, 0), (2, 2, 0), (3, 3, 0), (4, 4, 0), (3, 5, 0)]

/-- A cheaper valid path through the same world: four straight moves and
two diagonal moves, total cost 4 + 2 * 1.414 = 1707/250 < 707/100. -/
def goodPath6 : List Pos :=
  [(2, 0, 0), (1, 1, 0), (1, 2, 0), (1, 3, 0), (1, 4, 0), (2, 5, 0), (3, 5, 0)]

/-- Every tile's finite movement cost is at least 1: the base cost is 1
and both surcharges are nonnegative. -/
theorem Tile.one_le_movement_cost_val (t : Tile) : 1 ≤ t.movement_cost_val := by
  unfold Tile.movement_cost_val
  have h1 : (0:ℚ) ≤ (if 0 < t.water_level then (t.water_level : ℚ) * (1 / 2) else 0) := by
    split
    · rename_i h
      have hw : (0:ℚ) < (t.water_level : ℚ) := by exact_mod_cast h
      linarith
    · linarith
  have h2 : (0:ℚ) ≤ (if t.material = Constants.TILE_SOIL then (1:ℚ)/5 else 0) := by
    split <;> norm_num
  linarith

/-- The 10-connected one-step adjacency: a same-z king move, or a pure
z-step of one. -/
def Adjacent (a b : Pos) : Prop :=
  (b.2.2 = a.2.2 ∧ (b.1 - a.1).natAbs ≤ 1 ∧ (b.2.1 - a.2.1).natAbs ≤ 1 ∧ b ≠ a) ∨
  (b.1 = a.1 ∧ b.2.1 = a.2.1 ∧ (b.2.2 - a.2.2).natAbs = 1)

instance (a b : Pos) : Decidable (Adjacent a b) := by
  unfold Adjacent
  infer_instance

/-- C2 (amended): for adjacent positions the edge cost is the destination
cell's movement cost, multiplied by 1.414 = 707/500 (the source's decimal
stand-in for sqrt 2) when the horizontal displacement is diagonal, and by
2.0 when the move changes z; on the flat 5x5x1 grid, find_path returns
the 5-element diagonal path of total cost 4 * 1.414 = 5.656. -/
theorem C2_amended_thm :
    (∀ (pf : AStarPathfinder) (a b : Pos), Adjacent a b →
      pf.getMovementCost a b =
        (pf.world_state.get_tile b.1 b.2.1 b.2.2).get_movement_cost *
          (((if (b.1 - a.1).natAbs = 1 ∧ (b.2.1 - a.2.1).natAbs = 1 then (707 : ℚ) / 500 else 1) *
            (if b.2.2 ≠ a.2.2 then 2 else 1) : ℚ) : WithTop ℚ)) ∧
    (pf5.find_path (0, 0, 0) (4, 4, 0)).1 = some diagPath5 ∧
    pathCost pf5 diagPath5 = 4 * (707 / 500) := by
  refine ⟨?_, ?_, ?_⟩
  · intro pf a b h
    unfold AStarPathfinder.getMovementCost
    dsimp only
    rcases h with ⟨hz, hx, hy, hne⟩ | ⟨hx, hy, hz⟩
    · have hzn : (b.2.2 - a.2.2).natAbs = 0 := by
        rw [hz]
        simp
      rw [if_neg (show ¬ 0 < (b.2.2 - a.2.2).natAbs by omega)]
      rw [if_neg (show ¬ b.2.2 ≠ a.2.2 from not_not_intro hz)]
      by_cases hd : (b.1 - a.1).natAbs = 1 ∧ (b.2.1 - a.2.1).natAbs = 1
      · rw [if_pos (show 1 < (b.1 - a.1).natAbs + (b.2.1 - a.2.1).natAbs by omega)]
        rw [if_pos hd]
        norm_num
      · rw [if_neg (show ¬ 1 < (b.1 - a.1).natAbs + (b.2.1 - a.2.1).natAbs by omega)]
        rw [if_neg hd]
        norm_num
    · have hxn : (b.1 - a.1).natAbs = 0 := by
        rw [hx]
        simp
      have hyn : (b.2.1 - a.2.1).natAbs = 0 := by
        rw [hy]
        simp
      have hzne : b.2.2 ≠ a.2.2 := by
        intro hc
        rw [hc] at hz
        simp at hz
      rw [if_neg (show ¬ 1 < (b.1 - a.1).natAbs + (b.2.1 - a.2.1).natAbs by omega)]
      rw [if_pos (show 0 < (b.2.2 - a.2.2).natAbs by omega)]
      rw [if_neg (show ¬ ((b.1 - a.1).natAbs = 1 ∧ (b.2.1 - a.2.1).natAbs = 1) by omega)]
      rw [if_pos hzne]
      norm_num
  · with_unfolding_all decide
  · with_unfolding_all decide

/-- Witness for C2_amended_thm: the diagonal edge out of the origin on
the flat grid costs exactly 707/500. -/
theorem C2_amended_thm_witness :
    pf5.getMovementCost (0, 0, 0) (1, 1, 0) = (((707 : ℚ) / 500 : ℚ) : WithTop ℚ) := by
  have h := C2_amended_thm.1 pf5 (0, 0, 0) (1, 1, 0) (by decide)
  rw [h]
  with_unfolding_all decide

/-- C2 (counterexample): find_path on the flat 5x5x1 grid does return the
diagonal path of the spec's example, but its total cost is 707/125 =
5.656, which is not 4 * sqrt 2, and the diagonal edge cost is not sqrt 2
times the destination's movement cost: the source multiplies by the
literal 1.414, not by sqrt 2. -/
theorem C2_counterexample :
    (pf5.find_path (0, 0, 0) (4, 4, 0)).1 = some diagPath5 ∧
    pathCost pf5 diagPath5 = 707 / 125 ∧
    ((pathCost pf5 diagPath5 : ℚ) : ℝ) ≠ 4 * Real.sqrt 2 ∧
    ((pf5.edge_cost (0, 0, 0) (1, 1, 0) : ℚ) : ℝ) ≠
      Real.sqrt 2 * ((pf5.world_state.get_tile 1 1 0).movement_cost_val : ℝ) := by
  have hs : Real.sqrt 2 ^ 2 = 2 := Real.sq_sqrt (by norm_num)
  have hsn : (0:ℝ) ≤ Real.sqrt 2 := Real.sqrt_nonneg 2
  have hc : pathCost pf5 diagPath5 = 707 / 125 := by with_unfolding_all decide
  refine ⟨by with_unfolding_all decide, hc, ?_, ?_⟩
  · rw [hc]
    intro h
    rw [show ((707 / 125 : ℚ) : ℝ) = 707 / 125 by norm_num] at h
    nlinarith
  · have he : pf5.edge_cost (0, 0, 0) (1, 1, 0) = 707 / 500 := by with_unfolding_all decide
    have ht : (pf5.world_state.get_tile 1 1 0).movement_cost_val = 1 := by with_unfolding_all decide
    rw [he, ht]
    intro h
    rw [show ((707 / 500 : ℚ) : ℝ) = 707 / 500 by norm_num] at h
    norm_num at h
    nlinarith

/-- C3 (counterexample): on the flat 2x2x1 grid (all movement costs are
1, and in fact every Tile's cost is at least 1), the single diagonal step
from (0,0,0) to (1,1,0) is a valid walk of cost 707/500 = 1.414, strictly
below the heuristic value sqrt 2 between those cells: the heuristic
exceeds the true minimum remaining path cost. -/
theorem C3_counterexample :
    validWalk pf2 [(0, 0, 0), (1, 1, 0)] = true ∧
    pathCost pf2 [(0, 0, 0), (1, 1, 0)] = 707 / 500 ∧
    ((pathCost pf2 [(0, 0, 0), (1, 1, 0)] : ℚ) : ℝ)
      < Real.sqrt (heuristicSq (0, 0, 0) (1, 1, 0)) := by
  have hc : pathCost pf2 [(0, 0, 0), (1, 1, 0)] = 707 / 500 := by with_unfolding_all decide
  refine ⟨by with_unfolding_all decide, hc, ?_⟩
  rw [hc]
  have hn : heuristicSq (0, 0, 0) (1, 1, 0) = 2 := by decide
  rw [hn]
  rw [show (((707 : ℚ) / 500 : ℚ) : ℝ) = 707 / 500 by norm_num]
  rw [show ((2 : ℕ) : ℝ) = 2 by norm_num]
  rw [show (707 : ℝ) / 500 = Real.sqrt ((707 / 500) ^ 2) from
    (Real.sqrt_sq (by norm_num)).symm]
  apply Real.sqrt_lt_sqrt (by positivity)
  norm_num

/-- C3 (amended): the heuristic is the 3D Euclidean distance
sqrt(dx^2 + dy^2 + dz^2), and every tile's movement cost is at least 1,
but the heuristic does not always under-estimate the true remaining path
cost: between diagonal neighbors it is sqrt 2 while a valid single-step
walk costs only 1.414. -/
theorem C3_amended_thm :
    (∀ p q : Pos, Real.sqrt (heuristicSq p q) =
      Real.sqrt (((p.1 - q.1 : ℤ) : ℝ) ^ 2 + ((p.2.1 - q.2.1 : ℤ) : ℝ) ^ 2
        + ((p.2.2 - q.2.2 : ℤ) : ℝ) ^ 2)) ∧
    (∀ t : Tile, 1 ≤ t.movement_cost_val) ∧
    validWalk pf2 [(0, 0, 0), (1, 1, 0)] = true ∧
    ((pathCost pf2 [(0, 0, 0), (1, 1, 0)] : ℚ) : ℝ)
      < Real.sqrt (heuristicSq (0, 0, 0) (1, 1, 0)) := by
  refine ⟨?_, Tile.one_le_movement_cost_val, C3_counterexample.1, C3_counterexample.2.2⟩
  intro p q
  congr 1
  unfold heuristicSq
  dsimp only
  push_cast [Int.cast_natAbs]
  rw [abs_mul_abs_self, abs_mul_abs_self, abs_mul_abs_self]
  ring

/-- C1 (code bug evaluation): on the 6x6x1 world with six walls, the
search from (2,0,0) to (3,5,0) succeeds well within the default budget
and returns a path of total cost 707/100 = 7.07, yet goodPath6 is a valid
walk between the same endpoints of total cost 1707/250 = 6.828: the
returned path's cost is strictly above the true shortest-path cost. The
in-place g_cost update of an already-heaped node (source lines 85-90)
breaks the heap invariant, so a pop can return a non-minimal node. -/
theorem C1_suboptimal_eval :
    (pf6.find_path (2, 0, 0) (3, 5, 0)).1 = some badPath6 ∧
    pathCost pf6 badPath6 = 707 / 100 ∧
    validWalk pf6 goodPath6 = true ∧
    goodPath6.head? = some (2, 0, 0) ∧
    goodPath6.getLast? = some (3, 5, 0) ∧
    pathCost pf6 goodPath6 = 1707 / 250 ∧
    pathCost pf6 goodPath6 < pathCost pf6 badPath6 := by
  refine ⟨?_, ?_, ?_, ?_, ?_, ?_, ?_⟩ <;> with_unfolding_all decide

/-- Case analysis on a find_path call: cache hit (state unchanged), any
miss that fails (state unchanged), or a successful search whose result is
stored through cachePath. -/
theorem find_path_cases (pf : AStarPathfinder) (s g : Pos) :
    (∃ p, lookupCache pf.path_cache (s, g) = some p ∧ pf.find_path s g = (some p, pf)) ∨
    (lookupCache pf.path_cache (s, g) = none ∧ pf.find_path s g = (none, pf)) ∨
    (∃ p, lookupCache pf.path_cache (s, g) = none ∧
      pf.find_path s g = (some p, pf.cachePath (s, g) p)) := by
  unfold AStarPathfinder.find_path
  cases hc : lookupCache pf.path_cache (s, g) with
  | some q =>
    exact Or.inl ⟨q, rfl, rfl⟩
  | none =>
    by_cases h1 : ¬ pf.isValidPosition s ∨ ¬ pf.isValidPosition g
    · refine Or.inr (Or.inl ⟨rfl, ?_⟩)
      rw [if_pos h1]
    · rw [if_neg h1]
      by_cases h2 : ¬ pf.isPassable s ∨ ¬ pf.isPassable g
      · refine Or.inr (Or.inl ⟨rfl, ?_⟩)
        rw [if_pos h2]
      · rw [if_neg h2]
        dsimp only
        cases hs : searchLoop pf g pf.max_iterations.toNat _ with
        | some p => exact Or.inr (Or.inr ⟨p, rfl, rfl⟩)
        | none => exact Or.inr (Or.inl ⟨rfl, rfl⟩)

/-- C4: when the (start, goal) pair is not cached and either endpoint is
out-of-bounds or impassable, find_path returns None as an ordinary value
and the pathfinder state is untouched: the validation guards return
before any search state is built. -/
theorem C4_invalid_endpoint (pf : AStarPathfinder) (start goal : Pos)
    (hmiss : lookupCache pf.path_cache (start, goal) = none)
    (hbad : ¬ pf.isValidPosition start ∨ ¬ pf.isValidPosition goal ∨
      ¬ pf.isPassable start ∨ ¬ pf.isPassable goal) :
    pf.find_path start goal = (none, pf) := by
  unfold AStarPathfinder.find_path
  rw [hmiss]
  dsimp only
  by_cases h1 : ¬ pf.isValidPosition start ∨ ¬ pf.isValidPosition goal
  · rw [if_pos h1]
  · rw [if_neg h1]
    have h2 : ¬ pf.isPassable start ∨ ¬ pf.isPassable goal := by tauto
    rw [if_pos h2]

/-- Witness for C4: on the flat 5x5x1 grid with an empty cache, asking
for a path to the out-of-bounds goal (9,9,9) returns None and changes
nothing. -/
theorem C4_invalid_endpoint_witness :
    pf5.find_path (0, 0, 0) (9, 9, 9) = (none, pf5) :=
  C4_invalid_endpoint pf5 (0, 0, 0) (9, 9, 9) (by decide)
    (Or.inr (Or.inl (by decide)))

/-- C7: a call that returns None leaves the pathfinder exactly as it was
(nothing is cached for a failed search), and a call that returns a path
either served the cache unchanged or stored exactly that path through
_cache_path. -/
theorem C7_failure_never_cached (pf : AStarPathfinder) (start goal : Pos) :
    ((pf.find_path start goal).1 = none → (pf.find_path start goal).2 = pf) ∧
    (∀ p, (pf.find_path start goal).1 = some p →
      (pf.find_path start goal).2 = pf ∨
      (pf.find_path start goal).2 = pf.cachePath (start, goal) p) := by
  rcases find_path_cases pf start goal with ⟨q, _, heq⟩ | ⟨_, heq⟩ | ⟨q, _, heq⟩ <;>
    rw [heq] <;>
    constructor
  · intro h
    cases h
  · intro p hp
    exact Or.inl rfl
  · intro _
    rfl
  · intro p hp
    cases hp
  · intro h
    cases h
  · intro p hp
    refine Or.inr ?_
    cases hp
    rfl

/-- Witness for C7: the failed out-of-bounds call on the flat grid
leaves the pathfinder unchanged. -/
theorem C7_failure_never_cached_witness :
    (pf5.find_path (0, 0, 0) (9, 9, 9)).2 = pf5 :=
  (C7_failure_never_cached pf5 (0, 0, 0) (9, 9, 9)).1
    (by with_unfolding_all decide)

/-- Unfolding of the first loop iteration from the initial state: the
start node is popped, never stale, closed, and either it is the goal
(yielding the one-step reconstruction) or its neighbors are relaxed and
the loop continues with one unit of budget spent. -/
theorem searchLoop_init_succ (pf : AStarPathfinder) (start goal : Pos) (fuel : ℕ) :
    searchLoop pf goal (fuel + 1) (initState start goal) =
      (if start = goal then
        some (reconstructPath
          [{ position := start, g_cost := 0, h_cost := heuristicSq start goal, parent := none }] 0)
      else
        searchLoop pf goal fuel ((pf.getNeighbors start).foldl (processNeighbor pf goal 0)
          { store :=
              [{ position := start, g_cost := 0, h_cost := heuristicSq start goal, parent := none }],
            open_set := [], node_map := [(start, 0)], closed_set := [start] })) := rfl

/-- Reconstruction from a one-node arena whose node is parentless. -/
theorem reconstructPath_single (p : Pos) (g : ℚ) (h : ℕ) :
    reconstructPath [{ position := p, g_cost := g, h_cost := h, parent := none }] 0 = [p] := rfl

/-- C9: with a budget of one iteration, an uncached search between
distinct valid passable endpoints returns None: the single pop expands
the start node and the budget is exhausted, indistinguishable from
unreachability. -/
theorem C9_iteration_cap (pf : AStarPathfinder) (start goal : Pos)
    (hmiss : lookupCache pf.path_cache (start, goal) = none)
    (hv1 : pf.isValidPosition start) (hv2 : pf.isValidPosition goal)
    (hp1 : pf.isPassable start) (hp2 : pf.isPassable goal)
    (hne : start ≠ goal) (hit : pf.max_iterations = 1) :
    (pf.find_path start goal).1 = none := by
  unfold AStarPathfinder.find_path
  rw [hmiss]
  dsimp only
  rw [if_neg (by simp [hv1, hv2]), if_neg (by simp [hp1, hp2]), hit]
  rw [show ((1 : ℤ)).toNat = 0 + 1 from rfl]
  rw [searchLoop_init_succ, if_neg hne]
  rfl

/-- Witness for C9: on the flat 5x5x1 grid with budget 1, the search
from the origin to (4,4,0) gives up and returns None. -/
theorem C9_iteration_cap_witness :
    (({ world_state := flatWorld 5 1, max_iterations := 1 } :
      AStarPathfinder).find_path (0, 0, 0) (4, 4, 0)).1 = none :=
  C9_iteration_cap _ (0, 0, 0) (4, 4, 0) rfl (by decide) (by decide)
    (by decide) (by decide) (by decide) rfl

/-- C5: for an uncached in-bounds coordinate p and a positive iteration
budget, find_path(p, p) returns the single-element path when p is
passable (the start node is popped and found to be the goal on the first
iteration) and None when p is impassable (the validation guard). -/
theorem C5_start_eq_goal (pf : AStarPathfinder) (p : Pos)
    (hmiss : lookupCache pf.path_cache (p, p) = none)
    (hv : pf.isValidPosition p) (hit : 1 ≤ pf.max_iterations) :
    (pf.find_path p p).1 = if pf.isPassable p then some [p] else none := by
  unfold AStarPathfinder.find_path
  rw [hmiss]
  dsimp only
  rw [if_neg (by simp [hv])]
  by_cases hp : pf.isPassable p
  · rw [if_neg (by simp [hp]), if_pos hp]
    obtain ⟨k, hk⟩ : ∃ k, pf.max_iterations.toNat = k + 1 :=
      ⟨pf.max_iterations.toNat - 1, by omega⟩
    rw [hk, searchLoop_init_succ, if_pos rfl, reconstructPath_single]
  · rw [if_pos (Or.inl hp), if_neg hp]

/-- Witness for C5: on the flat grid, find_path((1,1,0),(1,1,0)) returns
the single-element path. -/
theorem C5_start_eq_goal_witness :
    (pf5.find_path (1, 1, 0) (1, 1, 0)).1 = some [(1, 1, 0)] := by
  have h := C5_start_eq_goal pf5 (1, 1, 0) rfl (by decide) (by decide)
  rw [h, if_pos (by decide)]

/-- Inserting into the cache dict grows it by at most one entry. -/
theorem dictInsert_length_le (c : List ((Pos × Pos) × List Pos)) (k : Pos × Pos) (p : List Pos) :
    (dictInsert c k p).length ≤ c.length + 1 := by
  unfold dictInsert
  split
  · rw [List.length_map]
    omega
  · rw [List.length_append]
    simp

/-- _cache_path keeps the cache within the configured maximum. -/
theorem cachePath_length_le (pf : AStarPathfinder) (k : Pos × Pos) (p : List Pos)
    (hM : 0 < pf.cache_max_size) (hlen : pf.path_cache.length ≤ pf.cache_max_size) :
    (pf.cachePath k p).path_cache.length ≤ pf.cache_max_size := by
  unfold AStarPathfinder.cachePath
  dsimp only
  split
  · rename_i hfull
    have h1 := dictInsert_length_le (pf.path_cache.drop 1) k p
    have h2 : (pf.path_cache.drop 1).length = pf.path_cache.length - 1 := by
      simp [List.length_drop]
    omega
  · rename_i hnot
    have h1 := dictInsert_length_le pf.path_cache k p
    omega

/-- A find_path call does not change the configured cache maximum. -/
theorem find_path_snd_max (pf : AStarPathfinder) (s g : Pos) :
    ((pf.find_path s g).2).cache_max_size = pf.cache_max_size := by
  rcases find_path_cases pf s g with ⟨q, _, h⟩ | ⟨_, h⟩ | ⟨q, _, h⟩ <;> rw [h] <;> rfl

/-- A find_path call keeps the cache within the configured maximum. -/
theorem find_path_snd_len (pf : AStarPathfinder) (s g : Pos)
    (hM : 0 < pf.cache_max_size) (h : pf.path_cache.length ≤ pf.cache_max_size) :
    ((pf.find_path s g).2).path_cache.length ≤ pf.cache_max_size := by
  rcases find_path_cases pf s g with ⟨q, _, heq⟩ | ⟨_, heq⟩ | ⟨q, _, heq⟩ <;> rw [heq]
  · exact h
  · exact h
  · exact cachePath_length_le pf (s, g) q hM h

/-- One externally invocable cache-relevant operation. -/
inductive CacheOp where
  | findPath (s g : Pos)
  | clearCache

/-- Run one operation against the pathfinder. -/
def applyOp (pf : AStarPathfinder) : CacheOp → AStarPathfinder
  | .findPath s g => (pf.find_path s g).2
  | .clearCache => pf.clear_cache

/-- Run a sequence of operations left to right. -/
def applyOps (pf : AStarPathfinder) : List CacheOp → AStarPathfinder
  | [] => pf
  | op :: rest => applyOps (applyOp pf op) rest

/-- Any sequence of find_path and clear_cache operations keeps the cache
within the configured maximum and leaves that maximum unchanged. -/
theorem applyOps_cache_bound (ops : List CacheOp) (pf : AStarPathfinder)
    (hM : 0 < pf.cache_max_size) (h : pf.path_cache.length ≤ pf.cache_max_size) :
    (applyOps pf ops).path_cache.length ≤ pf.cache_max_size ∧
    (applyOps pf ops).cache_max_size = pf.cache_max_size := by
  induction ops generalizing pf with
  | nil => exact ⟨h, rfl⟩
  | cons op rest ih =>
    cases op with
    | findPath s g =>
      have h1 := find_path_snd_max pf s g
      have h2 := find_path_snd_len pf s g hM h
      have h3 := ih ((pf.find_path s g).2) (by rw [h1]; exact hM) (by rw [h1]; exact h2)
      exact ⟨by rw [← h1]; exact h3.1, by rw [← h1]; exact h3.2⟩
    | clearCache =>
      have h3 := ih pf.clear_cache hM (by simp [AStarPathfinder.clear_cache])
      exact h3

/-- A full-cache store deletes exactly the first-inserted key and appends
the new one. -/
theorem cachePath_evicts_oldest (pf : AStarPathfinder) (k : Pos × Pos) (p : List Pos)
    (hfull : pf.cache_max_size ≤ pf.path_cache.length)
    (hfresh : k ∉ pf.path_cache.map Prod.fst) :
    (pf.cachePath k p).path_cache.map Prod.fst
      = (pf.path_cache.map Prod.fst).drop 1 ++ [k] := by
  unfold AStarPathfinder.cachePath
  dsimp only
  rw [if_pos hfull]
  unfold dictInsert
  have hfresh2 : k ∉ (pf.path_cache.drop 1).map Prod.fst := by
    rw [List.map_drop]
    intro hc
    exact hfresh (List.mem_of_mem_drop hc)
  rw [if_neg hfresh2]
  rw [List.map_append, List.map_drop]
  simp

/-- C6: after any sequence of find_path and clear_cache calls starting
from a cache within its positive configured maximum (1000 by default),
the cache size never exceeds that maximum; and a store hitting a full
cache evicts exactly one entry, the first-inserted (FIFO) one, before
appending the new entry. -/
theorem C6_cache_bound (pf0 : AStarPathfinder) (ops : List CacheOp)
    (hM : 0 < pf0.cache_max_size) (hstart : pf0.path_cache.length ≤ pf0.cache_max_size) :
    (applyOps pf0 ops).get_cache_size ≤ pf0.cache_max_size ∧
    (∀ (pf : AStarPathfinder) (key : Pos × Pos) (path : List Pos),
      pf.cache_max_size ≤ pf.path_cache.length →
      key ∉ pf.path_cache.map Prod.fst →
      (pf.cachePath key path).path_cache.map Prod.fst
        = (pf.path_cache.map Prod.fst).drop 1 ++ [key]) :=
  ⟨(applyOps_cache_bound ops pf0 hM hstart).1, cachePath_evicts_oldest⟩

/-- Witness for C6: five operations against a capacity-2 pathfinder on
the flat 3x3x1 grid leave at most 2 cached entries. -/
theorem C6_cache_bound_witness :
    (applyOps { world_state := flatWorld 3 1, cache_max_size := 2 }
      [CacheOp.findPath (0, 0, 0) (1, 0, 0), CacheOp.findPath (0, 0, 0) (2, 0, 0),
       CacheOp.findPath (1, 0, 0) (2, 0, 0), CacheOp.clearCache,
       CacheOp.findPath (0, 0, 0) (1, 1, 0)]).get_cache_size ≤ 2 :=
  (C6_cache_bound _ _ (by decide) (by decide)).1

/-- Reading an in-range index with getD is just indexing. -/
theorem getD_eq_getElem_of_lt (l : List ℕ) (i : ℕ) (d : ℕ) (h : i < l.length) :
    l.getD i d = l[i] := by
  rw [List.getD_eq_getElem?_getD, List.getElem?_eq_getElem h]
  rfl

/-- Writing back the value already stored at an index is a no-op. -/
theorem set_getD_self (l : List ℕ) (i : ℕ) (d : ℕ) (h : i < l.length) :
    l.set i (l.getD i d) = l := by
  apply List.ext_getElem (by simp)
  intro n h1 h2
  rw [List.getElem_set]
  split
  · rename_i he
    subst he
    rw [getD_eq_getElem_of_lt l i d h]
  · rfl

/-- Setting at one index does not change getD at another. -/
theorem getD_set_ne (l : List ℕ) (i j : ℕ) (a d : ℕ) (hne : i ≠ j) :
    (l.set i a).getD j d = l.getD j d := by
  rw [List.getD_eq_getElem?_getD, List.getD_eq_getElem?_getD, List.getElem?_set_ne hne]

/-- Swapping the roles of a cons cell and a set cell is a permutation. -/
theorem cons_set_perm (t : List ℕ) (m : ℕ) (a b : ℕ) (h : m < t.length) :
    (a :: t.set m b).Perm (b :: t.set m a) := by
  induction t generalizing m with
  | nil => simp at h
  | cons y t ih =>
    cases m with
    | zero => simpa using List.Perm.swap b a t
    | succ k =>
      have hk : k < t.length := by simpa using h
      have h1 : (a :: (y :: t).set (k + 1) b) = a :: y :: t.set k b := by simp
      have h2 : (b :: (y :: t).set (k + 1) a) = b :: y :: t.set k a := by simp
      rw [h1, h2]
      refine (List.Perm.swap y a (t.set k b)).trans ?_
      refine ((ih k hk).cons y).trans ?_
      exact List.Perm.swap b y (t.set k a)

/-- Writing a at i and b at j is, up to permutation, the same as writing
b at i and a at j (distinct in-range indices). -/
theorem set_set_perm (l : List ℕ) (i j : ℕ) (a b : ℕ) (hi : i < l.length)
    (hj : j < l.length) (hne : i ≠ j) :
    ((l.set i a).set j b).Perm ((l.set i b).set j a) := by
  induction l generalizing i j with
  | nil => simp at hi
  | cons x t ih =>
    cases i with
    | zero =>
      cases j with
      | zero => exact absurd rfl hne
      | succ m =>
        have hm : m < t.length := by simpa using hj
        simpa using cons_set_perm t m a b hm
    | succ n =>
      cases j with
      | zero =>
        have hn : n < t.length := by simpa using hi
        simpa using cons_set_perm t n b a hn
      | succ m =>
        have hn : n < t.length := by simpa using hi
        have hm : m < t.length := by simpa using hj
        have hnm : n ≠ m := fun hc => hne (by rw [hc])
        simpa using (ih n m hn hm hnm).cons x

/-- siftdownGo permutes the heap: its result is the input with newitem
written at the hole. -/
theorem siftdownGo_perm (lt : ℕ → ℕ → Bool) (v sp : ℕ) (fuel : ℕ) (heap : List ℕ) (pos : ℕ)
    (h : pos < heap.length) :
    (siftdownGo lt v sp fuel heap pos).Perm (heap.set pos v) := by
  induction fuel generalizing heap pos with
  | zero => exact List.Perm.refl _
  | succ fuel ih =>
    rw [siftdownGo]
    by_cases h1 : sp < pos
    · rw [if_pos h1]
      by_cases h2 : lt v (heap.getD ((pos - 1) / 2) 0) = true
      · rw [if_pos h2]
        have hpp : (pos - 1) / 2 < pos := by omega
        have hpplen : (pos - 1) / 2 < (heap.set pos (heap.getD ((pos - 1) / 2) 0)).length := by
          simp only [List.length_set]
          omega
        have hperm := ih (heap.set pos (heap.getD ((pos - 1) / 2) 0)) ((pos - 1) / 2) hpplen
        refine hperm.trans ?_
        have hswap := set_set_perm heap pos ((pos - 1) / 2)
          (heap.getD ((pos - 1) / 2) 0) v h (by omega) (by omega)
        refine hswap.trans ?_
        rw [show (heap.set pos v).set ((pos - 1) / 2) (heap.getD ((pos - 1) / 2) 0)
            = (heap.set pos v).set ((pos - 1) / 2) ((heap.set pos v).getD ((pos - 1) / 2) 0) by
          rw [getD_set_ne heap pos ((pos - 1) / 2) v 0 (by omega)]]
        rw [set_getD_self (heap.set pos v) ((pos - 1) / 2) 0 (by simp only [List.length_set]; omega)]
      · rw [if_neg h2]
    · rw [if_neg h1]

/-- siftupGo permutes the heap likewise. -/
theorem siftupGo_perm (lt : ℕ → ℕ → Bool) (v sp ep : ℕ) (fuel : ℕ) (heap : List ℕ) (pos : ℕ)
    (h : pos < heap.length) (hep : ep ≤ heap.length) :
    (siftupGo lt v sp ep fuel heap pos).Perm (heap.set pos v) := by
  induction fuel generalizing heap pos with
  | zero =>
    rw [siftupGo]
    have := siftdownGo_perm lt v sp pos (heap.set pos v) pos (by simpa using h)
    refine this.trans ?_
    rw [List.set_set]
  | succ fuel ih =>
    rw [siftupGo]
    by_cases h1 : 2 * pos + 1 < ep
    · rw [if_pos h1]
      by_cases h2 : 2 * pos + 2 < ep ∧
          lt (heap.getD (2 * pos + 1) 0) (heap.getD (2 * pos + 2) 0) = false
      · rw [if_pos h2]
        have hc : 2 * pos + 2 < heap.length := by omega
        have hperm := ih (heap.set pos (heap.getD (2 * pos + 2) 0)) (2 * pos + 2)
          (by simpa using hc) (by simpa using hep)
        refine hperm.trans ?_
        have hswap := set_set_perm heap pos (2 * pos + 2)
          (heap.getD (2 * pos + 2) 0) v h hc (by omega)
        refine hswap.trans ?_
        rw [show (heap.set pos v).set (2 * pos + 2) (heap.getD (2 * pos + 2) 0)
            = (heap.set pos v).set (2 * pos + 2) ((heap.set pos v).getD (2 * pos + 2) 0) by
          rw [getD_set_ne heap pos (2 * pos + 2) v 0 (by omega)]]
        rw [set_getD_self (heap.set pos v) (2 * pos + 2) 0 (by simpa using hc)]
      · rw [if_neg h2]
        have hc : 2 * pos + 1 < heap.length := by omega
        have hperm := ih (heap.set pos (heap.getD (2 * pos + 1) 0)) (2 * pos + 1)
          (by simpa using hc) (by simpa using hep)
        refine hperm.trans ?_
        have hswap := set_set_perm heap pos (2 * pos + 1)
          (heap.getD (2 * pos + 1) 0) v h hc (by omega)
        refine hswap.trans ?_
        rw [show (heap.set pos v).set (2 * pos + 1) (heap.getD (2 * pos + 1) 0)
            = (heap.set pos v).set (2 * pos + 1) ((heap.set pos v).getD (2 * pos + 1) 0) by
          rw [getD_set_ne heap pos (2 * pos + 1) v 0 (by omega)]]
        rw [set_getD_self (heap.set pos v) (2 * pos + 1) 0 (by simpa using hc)]
    · rw [if_neg h1]
      have := siftdownGo_perm lt v sp pos (heap.set pos v) pos (by simpa using h)
      refine this.trans ?_
      rw [List.set_set]

/-- heappush permutes: the new heap holds exactly the old elements plus
the pushed one. -/
theorem heappush_perm (lt : ℕ → ℕ → Bool) (heap : List ℕ) (item : ℕ) :
    (heappush lt heap item).Perm (heap ++ [item]) := by
  unfold heappush
  have h := siftdownGo_perm lt item 0 heap.length (heap ++ [item]) heap.length (by simp)
  have hg : (heap ++ [item]).getD heap.length 0 = item := by
    rw [getD_eq_getElem_of_lt _ _ _ (by simp)]
    exact List.getElem_concat_length heap item heap.length rfl _
  have he : (heap ++ [item]).set heap.length item = heap ++ [item] := by
    have h2 := set_getD_self (heap ++ [item]) heap.length 0 (by simp)
    rw [hg] at h2
    exact h2
  rw [he] at h
  exact h

/-- heappop permutes: the popped element together with the remaining heap
is exactly the old heap. -/
theorem heappop_perm (lt : ℕ → ℕ → Bool) (heap : List ℕ) (x : ℕ) (rest : List ℕ)
    (h : heappop lt heap = some (x, rest)) :
    (x :: rest).Perm heap := by
  unfold heappop at h
  cases hl : heap.getLast? with
  | none =>
    rw [hl] at h
    cases h
  | some lastelt =>
    rw [hl] at h
    dsimp only at h
    have hne : heap ≠ [] := by
      intro hc
      rw [hc] at hl
      cases hl
    have hlast : lastelt = heap.getLast hne := by
      have h2 := List.getLast?_eq_getLast heap hne
      rw [hl] at h2
      exact Option.some_inj.mp h2
    have hdec : heap.dropLast ++ [lastelt] = heap := by
      rw [hlast]
      exact List.dropLast_append_getLast hne
    by_cases hemp : heap.dropLast.isEmpty = true
    · rw [if_pos hemp] at h
      simp only [Option.some_inj, Prod.mk.injEq] at h
      obtain ⟨hx, hrest⟩ := h
      subst hx
      subst hrest
      have hdnil : heap.dropLast = [] := List.isEmpty_iff.mp hemp
      rw [← hdec, hdnil]
      exact List.Perm.refl _
    · rw [if_neg hemp] at h
      simp only [Option.some_inj, Prod.mk.injEq] at h
      obtain ⟨hx, hrest⟩ := h
      subst hx
      subst hrest
      have hrlen : 0 < heap.dropLast.length := by
        cases hd : heap.dropLast with
        | nil => rw [hd] at hemp; simp at hemp
        | cons a t => simp
      have hperm := siftupGo_perm lt lastelt 0 heap.dropLast.length heap.dropLast.length
        (heap.dropLast.set 0 lastelt) 0 (by simpa using hrlen) (by simp)
      have hset : (heap.dropLast.set 0 lastelt).set 0 lastelt = heap.dropLast.set 0 lastelt :=
        List.set_set lastelt lastelt _ 0
      rw [hset] at hperm
      refine (List.Perm.cons _ hperm).trans ?_
      cases hd : heap.dropLast with
      | nil => rw [hd] at hrlen; simp at hrlen
      | cons hd0 tl =>
        rw [← hdec, hd]
        simp only [List.getD, List.set]
        have hmid : (lastelt :: tl).Perm (tl ++ [lastelt]) :=
          (List.perm_append_singleton lastelt tl).symm
        exact List.Perm.cons hd0 hmid

/-- Every edge has strictly positive cost: the tile cost is at least 1
and both multipliers are at least 1. -/
theorem edge_cost_pos (pf : AStarPathfinder) (a b : Pos) : 0 < pf.edge_cost a b := by
  unfold AStarPathfinder.edge_cost
  dsimp only
  have hb := Tile.one_le_movement_cost_val (pf.world_state.get_tile b.1 b.2.1 b.2.2)
  split <;> split <;> nlinarith

/-- Arena reads below the old length are unaffected by appending. -/
theorem getNode_append_lt (store : List PathNode) (nn : PathNode) (i : ℕ)
    (h : i < store.length) : getNode (store ++ [nn]) i = getNode store i := by
  unfold getNode
  rw [List.getD_eq_getElem?_getD, List.getD_eq_getElem?_getD, List.getElem?_append_left h]

/-- Reading the appended slot yields the new node. -/
theorem getNode_append_self (store : List PathNode) (nn : PathNode) :
    getNode (store ++ [nn]) store.length = nn := by
  unfold getNode
  rw [List.getD_eq_getElem?_getD, List.getElem?_concat_length]
  rfl

/-- Arena reads at other indices are unaffected by an in-place update. -/
theorem getNode_set_ne (store : List PathNode) (i j : ℕ) (nn : PathNode)
    (h : i ≠ j) : getNode (store.set i nn) j = getNode store j := by
  unfold getNode
  rw [List.getD_eq_getElem?_getD, List.getD_eq_getElem?_getD, List.getElem?_set_ne h]

/-- Reading an updated in-range slot yields the written node. -/
theorem getNode_set_self (store : List PathNode) (i : ℕ) (nn : PathNode)
    (h : i < store.length) : getNode (store.set i nn) i = nn := by
  unfold getNode
  rw [List.getD_eq_getElem?_getD, List.getElem?_set_self h]
  rfl

/-- Keys found in the node_map dict survive appending a fresh entry. -/
theorem lookupPos_append_some (m : List (Pos × ℕ)) (kv : Pos × ℕ) (p : Pos) (i : ℕ)
    (h : lookupPos m p = some i) : lookupPos (m ++ [kv]) p = some i := by
  induction m with
  | nil => cases h
  | cons hd tl ih =>
    obtain ⟨k, v⟩ := hd
    rw [lookupPos] at h
    rw [List.cons_append, lookupPos]
    by_cases hk : k = p
    · rwa [if_pos hk] at h ⊢
    · rw [if_neg hk] at h ⊢
      exact ih h

/-- Looking a key up after appending an entry: either it was already
present, or the lookup reaches the new entry. -/
theorem lookupPos_append_none (m : List (Pos × ℕ)) (q : Pos) (v : ℕ) (p : Pos)
    (h : lookupPos m p = none) :
    lookupPos (m ++ [(q, v)]) p = if q = p then some v else none := by
  induction m with
  | nil => rfl
  | cons hd tl ih =>
    obtain ⟨k, w⟩ := hd
    rw [lookupPos] at h
    rw [List.cons_append, lookupPos]
    by_cases hk : k = p
    · rw [if_pos hk] at h
      cases h
    · rw [if_neg hk] at h ⊢
      exact ih h

/-- Full case analysis for lookup in an extended node_map dict. -/
theorem lookupPos_append_cases (m : List (Pos × ℕ)) (q : Pos) (v : ℕ) (p : Pos) (i : ℕ)
    (h : lookupPos (m ++ [(q, v)]) p = some i) :
    lookupPos m p = some i ∨ (lookupPos m p = none ∧ q = p ∧ i = v) := by
  cases hm : lookupPos m p with
  | some j =>
    have := lookupPos_append_some m (q, v) p j hm
    rw [this] at h
    exact Or.inl h
  | none =>
    have := lookupPos_append_none m q v p hm
    rw [this] at h
    by_cases hq : q = p
    · rw [if_pos hq] at h
      exact Or.inr ⟨rfl, hq, (Option.some_inj.mp h).symm⟩
    · rw [if_neg hq] at h
      cases h

/-- The per-search invariant relating the heap, the node arena, the
node_map dict and the closed set: heap entries are distinct in-range
arena indices of not-yet-closed positions, node_map certifies positions,
g-costs are nonnegative, the only parentless node is the start node, and
parent links strictly decrease the g-cost (hence are acyclic). -/
structure StateInv (start : Pos) (st : SearchState) : Prop where
  open_lt : ∀ i ∈ st.open_set, i < st.store.length
  open_nodup : st.open_set.Nodup
  open_not_closed : ∀ i ∈ st.open_set, (getNode st.store i).position ∉ st.closed_set
  map_complete : ∀ i ∈ st.open_set,
    lookupPos st.node_map (getNode st.store i).position = some i
  map_lookup : ∀ p i, lookupPos st.node_map p = some i →
    i < st.store.length ∧ (getNode st.store i).position = p
  g_nonneg : ∀ i, i < st.store.length → 0 ≤ (getNode st.store i).g_cost
  parent_none : ∀ i, i < st.store.length → (getNode st.store i).parent = none →
    (getNode st.store i).position = start
  parent_lt : ∀ i, i < st.store.length → ∀ j, (getNode st.store i).parent = some j →
    j < st.store.length ∧ (getNode st.store j).g_cost < (getNode st.store i).g_cost

/-- The state built by find_path before the loop satisfies the search
invariant. -/
theorem initState_inv (start goal : Pos) : StateInv start (initState start goal) := by
  have hopen : (initState start goal).open_set = [0] := rfl
  refine ⟨?_, ?_, ?_, ?_, ?_, ?_, ?_, ?_⟩
  · intro i hi
    rw [hopen] at hi
    simp at hi
    subst hi
    simp [initState]
  · rw [hopen]
    simp
  · intro i hi
    simp [initState]
  · intro i hi
    rw [hopen] at hi
    simp at hi
    subst hi
    simp [initState, getNode, lookupPos]
  · intro p i h
    simp only [initState, lookupPos] at h
    by_cases hp : start = p
    · rw [if_pos hp] at h
      cases h
      constructor
      · simp [initState]
      · simp [initState, getNode]
        exact hp
    · rw [if_neg hp] at h
      cases h
  · intro i hi
    simp only [initState] at hi
    simp at hi
    subst hi
    simp [initState, getNode]
  · intro i hi _
    simp only [initState] at hi
    simp at hi
    subst hi
    simp [initState, getNode]
  · intro i hi j hj
    simp only [initState] at hi
    simp at hi
    subst hi
    simp [initState, getNode] at hj

/-- Relaxing one neighbor preserves the search invariant. -/
theorem processNeighbor_inv (pf : AStarPathfinder) (goal : Pos) (curId : ℕ) (start : Pos)
    (st : SearchState) (npos : Pos) (hinv : StateInv start st)
    (hcur : curId < st.store.length) :
    StateInv start (processNeighbor pf goal curId st npos) := by
  unfold processNeighbor
  by_cases hguard : npos ∈ st.closed_set ∨ ¬ pf.isPassable npos
  · rw [if_pos hguard]
    exact hinv
  · rw [if_neg hguard]
    dsimp only
    cases hl : lookupPos st.node_map npos with
    | some nid =>
      dsimp only
      obtain ⟨hnidlt, hnidpos⟩ := hinv.map_lookup npos nid hl
      by_cases himpr : (getNode st.store curId).g_cost
          + pf.edge_cost (getNode st.store curId).position npos
          < (getNode st.store nid).g_cost
      · rw [if_pos himpr]
        have hepos := edge_cost_pos pf (getNode st.store curId).position npos
        have hcurne : curId ≠ nid := by
          intro hc
          rw [hc] at himpr
          have h2 := edge_cost_pos pf (getNode st.store nid).position npos
          linarith
        have hposk : ∀ k, (getNode (st.store.set nid
            { getNode st.store nid with
              g_cost := (getNode st.store curId).g_cost
                + pf.edge_cost (getNode st.store curId).position npos,
              parent := some curId }) k).position = (getNode st.store k).position := by
          intro k
          by_cases hk : nid = k
          · subst hk
            rw [getNode_set_self _ _ _ hnidlt]
          · rw [getNode_set_ne _ _ _ _ hk]
        refine ⟨?_, hinv.open_nodup, ?_, ?_, ?_, ?_, ?_, ?_⟩
        · intro i hi
          simpa using hinv.open_lt i hi
        · intro i hi
          rw [hposk i]
          exact hinv.open_not_closed i hi
        · intro i hi
          rw [hposk i]
          exact hinv.map_complete i hi
        · intro p k hk
          obtain ⟨h1, h2⟩ := hinv.map_lookup p k hk
          exact ⟨by simpa using h1, by rw [hposk k]; exact h2⟩
        · intro k hk
          have hk' : k < st.store.length := by simpa using hk
          by_cases hknid : k = nid
          · subst hknid
            rw [getNode_set_self _ _ _ hnidlt]
            have := hinv.g_nonneg curId hcur
            dsimp only
            linarith
          · rw [getNode_set_ne _ _ _ _ (fun hc => hknid hc.symm)]
            exact hinv.g_nonneg k hk'
        · intro k hk hp
          have hk' : k < st.store.length := by simpa using hk
          by_cases hknid : k = nid
          · subst hknid
            rw [getNode_set_self _ _ _ hnidlt] at hp
            cases hp
          · rw [getNode_set_ne _ _ _ _ (fun hc => hknid hc.symm)] at hp ⊢
            exact hinv.parent_none k hk' hp
        · intro k hk j hj
          have hk' : k < st.store.length := by simpa using hk
          by_cases hknid : k = nid
          · subst hknid
            rw [getNode_set_self _ _ _ hnidlt] at hj
            dsimp only at hj
            have hjc : j = curId := by
              injection hj with hj'
              exact hj'.symm
            rw [hjc]
            rw [getNode_set_ne _ _ _ _ (fun hc => hcurne hc.symm),
              getNode_set_self _ _ _ hnidlt]
            exact ⟨by simpa using hcur, by dsimp only; linarith⟩
          · rw [getNode_set_ne _ _ _ _ (fun hc => hknid hc.symm)] at hj ⊢
            obtain ⟨hjlt, hjg⟩ := hinv.parent_lt k hk' j hj
            by_cases hjnid : j = nid
            · subst hjnid
              rw [getNode_set_self _ _ _ hnidlt]
              exact ⟨by simpa using hjlt, by dsimp only; linarith⟩
            · rw [getNode_set_ne _ _ _ _ (fun hc => hjnid hc.symm)]
              exact ⟨by simpa using hjlt, hjg⟩
      · rw [if_neg himpr]
        exact hinv
    | none =>
      dsimp only
      have hperm := heappush_perm (nodeLt (st.store ++ [({ position := npos, g_cost := (getNode st.store curId).g_cost + pf.edge_cost (getNode st.store curId).position npos, h_cost := heuristicSq npos goal, parent := some curId } : PathNode)])) st.open_set st.store.length
      have hmem : ∀ i, i ∈ heappush (nodeLt (st.store ++ [({ position := npos, g_cost := (getNode st.store curId).g_cost + pf.edge_cost (getNode st.store curId).position npos, h_cost := heuristicSq npos goal, parent := some curId } : PathNode)])) st.open_set st.store.length ↔ i ∈ st.open_set ∨ i = st.store.length := by
        intro i
        rw [hperm.mem_iff]
        simp
      refine ⟨?_, ?_, ?_, ?_, ?_, ?_, ?_, ?_⟩
      · intro i hi
        rw [hmem i] at hi
        rcases hi with hi | hi
        · have := hinv.open_lt i hi
          simp only [List.length_append, List.length_cons, List.length_nil]
          omega
        · subst hi
          simp
      · refine (hperm.nodup_iff).mpr ?_
        rw [List.nodup_append]
        refine ⟨hinv.open_nodup, List.nodup_singleton _, ?_⟩
        intro a ha
        simp only [List.mem_singleton]
        intro hb
        rw [hb] at ha
        exact absurd (hinv.open_lt _ ha) (lt_irrefl _)
      · intro i hi
        rw [hmem i] at hi
        rcases hi with hi | hi
        · rw [getNode_append_lt _ _ _ (hinv.open_lt i hi)]
          exact hinv.open_not_closed i hi
        · subst hi
          rw [getNode_append_self]
          dsimp only
          intro hc
          exact hguard (Or.inl hc)
      · intro i hi
        rw [hmem i] at hi
        rcases hi with hi | hi
        · rw [getNode_append_lt _ _ _ (hinv.open_lt i hi)]
          exact lookupPos_append_some _ _ _ _ (hinv.map_complete i hi)
        · subst hi
          rw [getNode_append_self]
          dsimp only
          rw [lookupPos_append_none _ _ _ _ hl, if_pos rfl]
      · intro p k hk
        rcases lookupPos_append_cases _ _ _ _ _ hk with hk2 | ⟨_, hq, hkv⟩
        · obtain ⟨h1, h2⟩ := hinv.map_lookup p k hk2
          refine ⟨?_, ?_⟩
          · simp only [List.length_append, List.length_cons, List.length_nil]
            omega
          · rw [getNode_append_lt _ _ _ h1]
            exact h2
        · subst hkv
          refine ⟨by simp, ?_⟩
          rw [getNode_append_self]
          exact hq
      · intro k hk
        simp only [List.length_append, List.length_cons, List.length_nil] at hk
        by_cases hkl : k < st.store.length
        · rw [getNode_append_lt _ _ _ hkl]
          exact hinv.g_nonneg k hkl
        · have hke : k = st.store.length := by omega
          subst hke
          rw [getNode_append_self]
          have h1 := hinv.g_nonneg curId hcur
          have h2 := edge_cost_pos pf (getNode st.store curId).position npos
          dsimp only
          linarith
      · intro k hk hp
        simp only [List.length_append, List.length_cons, List.length_nil] at hk
        by_cases hkl : k < st.store.length
        · rw [getNode_append_lt _ _ _ hkl] at hp ⊢
          exact hinv.parent_none k hkl hp
        · have hke : k = st.store.length := by omega
          subst hke
          rw [getNode_append_self] at hp
          cases hp
      · intro k hk j hj
        simp only [List.length_append, List.length_cons, List.length_nil] at hk
        by_cases hkl : k < st.store.length
        · rw [getNode_append_lt _ _ _ hkl] at hj ⊢
          obtain ⟨hjlt, hjg⟩ := hinv.parent_lt k hkl j hj
          refine ⟨?_, ?_⟩
          · simp only [List.length_append, List.length_cons, List.length_nil]
            omega
          · rw [getNode_append_lt _ _ _ hjlt]
            exact hjg
        · have hke : k = st.store.length := by omega
          subst hke
          rw [getNode_append_self] at hj ⊢
          dsimp only at hj
          have hjc : j = curId := by
            injection hj with hj'
            exact hj'.symm
          rw [hjc]
          refine ⟨by simp only [List.length_append, List.length_cons, List.length_nil]; omega, ?_⟩
          rw [getNode_append_lt _ _ _ hcur]
          have h2 := edge_cost_pos pf (getNode st.store curId).position npos
          dsimp only
          linarith

/-- Relaxing one neighbor never shrinks the arena and never touches the
closed set. -/
theorem processNeighbor_store_len (pf : AStarPathfinder) (goal : Pos) (curId : ℕ)
    (st : SearchState) (npos : Pos) :
    st.store.length ≤ (processNeighbor pf goal curId st npos).store.length ∧
    (processNeighbor pf goal curId st npos).closed_set = st.closed_set := by
  unfold processNeighbor
  by_cases hguard : npos ∈ st.closed_set ∨ ¬ pf.isPassable npos
  · rw [if_pos hguard]
    exact ⟨le_refl _, rfl⟩
  · rw [if_neg hguard]
    dsimp only
    cases hl : lookupPos st.node_map npos with
    | some nid =>
      dsimp only
      split
      · exact ⟨by simp, rfl⟩
      · exact ⟨le_refl _, rfl⟩
    | none =>
      dsimp only
      exact ⟨by simp, rfl⟩

/-- The whole neighbor fold preserves the invariant and never shrinks the
arena or touches the closed set. -/
theorem foldl_processNeighbor_inv (pf : AStarPathfinder) (goal : Pos) (curId : ℕ)
    (start : Pos) (l : List Pos) (st : SearchState) (hinv : StateInv start st)
    (hcur : curId < st.store.length) :
    StateInv start (l.foldl (processNeighbor pf goal curId) st) ∧
    st.store.length ≤ (l.foldl (processNeighbor pf goal curId) st).store.length ∧
    (l.foldl (processNeighbor pf goal curId) st).closed_set = st.closed_set := by
  induction l generalizing st with
  | nil => exact ⟨hinv, le_refl _, rfl⟩
  | cons p rest ih =>
    rw [List.foldl_cons]
    obtain ⟨hlen, hcl⟩ := processNeighbor_store_len pf goal curId st p
    have hinv2 := processNeighbor_inv pf goal curId start st p hinv hcur
    obtain ⟨h1, h2, h3⟩ := ih (processNeighbor pf goal curId st p) hinv2 (by omega)
    exact ⟨h1, by omega, by rw [h3, hcl]⟩

/-- Popping from the heap of a state satisfying the invariant yields an
in-range, unclosed node, and closing its position preserves the
invariant. -/
theorem pop_inv (start : Pos) (st : SearchState) (hinv : StateInv start st) (x : ℕ)
    (rest : List ℕ) (h : heappop (nodeLt st.store) st.open_set = some (x, rest)) :
    x ∈ st.open_set ∧ x < st.store.length ∧
    (getNode st.store x).position ∉ st.closed_set ∧
    StateInv start { st with open_set := rest, closed_set := (getNode st.store x).position :: st.closed_set } := by
  have hperm := heappop_perm (nodeLt st.store) st.open_set x rest h
  have hxmem : x ∈ st.open_set := hperm.subset (List.mem_cons_self x rest)
  have hrsub : ∀ i ∈ rest, i ∈ st.open_set := fun i hi =>
    hperm.subset (List.mem_cons_of_mem x hi)
  have hnodup : (x :: rest).Nodup := (hperm.nodup_iff).mpr hinv.open_nodup
  have hxnotr : x ∉ rest := (List.nodup_cons.mp hnodup).1
  have hrnodup : rest.Nodup := (List.nodup_cons.mp hnodup).2
  refine ⟨hxmem, hinv.open_lt x hxmem, hinv.open_not_closed x hxmem,
    ⟨?_, hrnodup, ?_, ?_, hinv.map_lookup, hinv.g_nonneg, hinv.parent_none, hinv.parent_lt⟩⟩
  · intro i hi
    exact hinv.open_lt i (hrsub i hi)
  · intro i hi
    simp only [List.mem_cons]
    rintro (hc | hc)
    · have h1 := hinv.map_complete i (hrsub i hi)
      have h2 := hinv.map_complete x hxmem
      rw [hc] at h1
      rw [h1] at h2
      have : x = i := (Option.some_inj.mp h2).symm
      rw [this] at hxnotr
      exact hxnotr hi
    · exact hinv.open_not_closed i (hrsub i hi) hc
  · intro i hi
    exact hinv.map_complete i (hrsub i hi)

/-- Number of arena nodes of strictly smaller g-cost; the measure that
parent links strictly decrease. -/
def gBelow (store : List PathNode) (i : ℕ) : ℕ :=
  ((Finset.range store.length).filter
    (fun j => (getNode store j).g_cost < (getNode store i).g_cost)).card

/-- Parent links strictly decrease the measure. -/
theorem gBelow_lt (store : List PathNode) (i j : ℕ) (hj : j < store.length)
    (hg : (getNode store j).g_cost < (getNode store i).g_cost) :
    gBelow store j < gBelow store i := by
  apply Finset.card_lt_card
  rw [Finset.ssubset_iff_of_subset]
  · exact ⟨j, by simp [hj, hg], by simp⟩
  · intro k hk
    simp only [Finset.mem_filter, Finset.mem_range] at hk ⊢
    exact ⟨hk.1, hk.2.trans hg⟩

/-- The measure is bounded by the arena size. -/
theorem gBelow_lt_length (store : List PathNode) (i : ℕ) (hi : i < store.length) :
    gBelow store i < store.length := by
  have h1 : ((Finset.range store.length).filter
      (fun j => (getNode store j).g_cost < (getNode store i).g_cost))
      ⊆ (Finset.range store.length).erase i := by
    intro k hk
    simp only [Finset.mem_filter, Finset.mem_range] at hk
    rw [Finset.mem_erase]
    refine ⟨?_, by simp [hk.1]⟩
    intro hc
    rw [hc] at hk
    exact absurd hk.2 (lt_irrefl _)
  have h2 := Finset.card_le_card h1
  rw [Finset.card_erase_of_mem (by simp [hi]), Finset.card_range] at h2
  unfold gBelow
  omega

/-- Walking parent links from any in-range node, with fuel above its
measure, yields a nonempty position list that starts at the node's own
position and ends at the start position. -/
theorem walkParents_endpoints (store : List PathNode) (start : Pos)
    (hnone : ∀ i, i < store.length → (getNode store i).parent = none →
      (getNode store i).position = start)
    (hlt : ∀ i, i < store.length → ∀ j, (getNode store i).parent = some j →
      j < store.length ∧ (getNode store j).g_cost < (getNode store i).g_cost) :
    ∀ (fuel i : ℕ), i < store.length → gBelow store i < fuel →
      walkParents store fuel i ≠ [] ∧
      (walkParents store fuel i).head? = some (getNode store i).position ∧
      (walkParents store fuel i).getLast? = some start := by
  intro fuel
  induction fuel with
  | zero =>
    intro i _ hr
    omega
  | succ fuel ih =>
    intro i hi hr
    rw [walkParents]
    cases hp : (getNode store i).parent with
    | none =>
      refine ⟨by simp, by simp, ?_⟩
      simp only [List.getLast?_singleton]
      rw [hnone i hi hp]
    | some j =>
      obtain ⟨hj, hg⟩ := hlt i hi j hp
      have hrj : gBelow store j < fuel := by
        have := gBelow_lt store i j hj hg
        omega
      obtain ⟨hne, hhead, hlast⟩ := ih j hj hrj
      simp only [hp]
      refine ⟨by simp, by simp, ?_⟩
      cases hw : walkParents store fuel j with
      | nil => exact absurd hw hne
      | cons b t =>
        rw [List.getLast?_cons_cons]
        rw [hw] at hlast
        exact hlast

/-- Any path the search loop returns from an invariant-satisfying state
is nonempty, starts at the start position and ends at the goal. -/
theorem searchLoop_endpoints (pf : AStarPathfinder) (start goal : Pos) :
    ∀ (fuel : ℕ) (st : SearchState), StateInv start st →
      ∀ path, searchLoop pf goal fuel st = some path →
        path ≠ [] ∧ path.head? = some start ∧ path.getLast? = some goal := by
  intro fuel
  induction fuel with
  | zero =>
    intro st _ path h
    cases h
  | succ fuel ih =>
    intro st hinv path h
    rw [searchLoop] at h
    cases hp : heappop (nodeLt st.store) st.open_set with
    | none =>
      rw [hp] at h
      cases h
    | some pr =>
      obtain ⟨x, rest⟩ := pr
      rw [hp] at h
      dsimp only at h
      obtain ⟨hxopen, hxlt, hxnc, hinv2⟩ := pop_inv start st hinv x rest hp
      rw [if_neg hxnc] at h
      by_cases hg : (getNode st.store x).position = goal
      · rw [if_pos hg] at h
        have hpath : path = reconstructPath st.store x := (Option.some_inj.mp h).symm
        subst hpath
        unfold reconstructPath
        obtain ⟨hne, hhead, hlast⟩ := walkParents_endpoints st.store start
          hinv.parent_none hinv.parent_lt st.store.length x hxlt
          (gBelow_lt_length st.store x hxlt)
        refine ⟨by simpa using hne, ?_, ?_⟩
        · rw [List.head?_reverse, hlast]
        · rw [List.getLast?_reverse, hhead, hg]
      · rw [if_neg hg] at h
        obtain ⟨hinv3, _, _⟩ := foldl_processNeighbor_inv pf goal x start
          (pf.getNeighbors (getNode st.store x).position)
          { st with open_set := rest, closed_set := (getNode st.store x).position :: st.closed_set }
          hinv2 hxlt
        exact ih _ hinv3 path h

/-- A successful cache lookup returns a stored entry. -/
theorem lookupCache_mem (c : List ((Pos × Pos) × List Pos)) (k : Pos × Pos) (p : List Pos)
    (h : lookupCache c k = some p) : (k, p) ∈ c := by
  induction c with
  | nil => cases h
  | cons hd tl ih =>
    obtain ⟨k2, v2⟩ := hd
    rw [lookupCache] at h
    by_cases hk : k2 = k
    · rw [if_pos hk] at h
      have : v2 = p := Option.some_inj.mp h
      subst hk
      subst this
      exact List.mem_cons_self _ _
    · rw [if_neg hk] at h
      exact List.mem_cons_of_mem _ (ih h)

/-- Entries of the cache after a dict insert: either an old entry or the
newly inserted one. -/
theorem dictInsert_mem (c : List ((Pos × Pos) × List Pos)) (k : Pos × Pos) (v : List Pos)
    (kv : (Pos × Pos) × List Pos) (h : kv ∈ dictInsert c k v) : kv ∈ c ∨ kv = (k, v) := by
  unfold dictInsert at h
  split at h
  · rw [List.mem_map] at h
    obtain ⟨a, ha, hae⟩ := h
    by_cases hk : a.1 = k
    · rw [if_pos hk] at hae
      exact Or.inr hae.symm
    · rw [if_neg hk] at hae
      rw [← hae]
      exact Or.inl ha
  · rw [List.mem_append] at h
    rcases h with h | h
    · exact Or.inl h
    · simp only [List.mem_singleton] at h
      exact Or.inr h

/-- Every cached entry is a nonempty path running from its key's start to
its key's goal. -/
def CacheOK (pf : AStarPathfinder) : Prop :=
  ∀ k p, (k, p) ∈ pf.path_cache → p ≠ [] ∧ p.head? = some k.1 ∧ p.getLast? = some k.2

/-- A fresh (cache-missing) successful find_path call returns a nonempty
path from start to goal. -/
theorem find_path_fresh_some (pf : AStarPathfinder) (s g : Pos) (p : List Pos)
    (hmiss : lookupCache pf.path_cache (s, g) = none)
    (h : (pf.find_path s g).1 = some p) :
    p ≠ [] ∧ p.head? = some s ∧ p.getLast? = some g := by
  unfold AStarPathfinder.find_path at h
  rw [hmiss] at h
  dsimp only at h
  by_cases h1 : ¬ pf.isValidPosition s ∨ ¬ pf.isValidPosition g
  · rw [if_pos h1] at h
    cases h
  · rw [if_neg h1] at h
    by_cases h2 : ¬ pf.isPassable s ∨ ¬ pf.isPassable g
    · rw [if_pos h2] at h
      cases h
    · rw [if_neg h2] at h
      cases hs : searchLoop pf g pf.max_iterations.toNat (initState s g) with
      | none =>
        rw [hs] at h
        cases h
      | some q =>
        rw [hs] at h
        dsimp only at h
        have hq : q = p := Option.some_inj.mp h
        subst hq
        exact searchLoop_endpoints pf s g pf.max_iterations.toNat (initState s g)
          (initState_inv s g) q hs

/-- One find_path call preserves the cache-endpoint invariant. -/
theorem find_path_cacheOK (pf : AStarPathfinder) (s g : Pos) (hok : CacheOK pf) :
    CacheOK (pf.find_path s g).2 := by
  rcases find_path_cases pf s g with ⟨q, _, heq⟩ | ⟨_, heq⟩ | ⟨q, hmiss, heq⟩
  · rw [heq]
    exact hok
  · rw [heq]
    exact hok
  · have hq := find_path_fresh_some pf s g q hmiss (by rw [heq])
    rw [heq]
    intro k p hk
    unfold AStarPathfinder.cachePath at hk
    dsimp only at hk
    rcases dictInsert_mem _ _ _ _ hk with hk2 | hk2
    · have hmem : (k, p) ∈ pf.path_cache := by
        split at hk2
        · exact List.mem_of_mem_drop hk2
        · exact hk2
      exact hok k p hmem
    · have hk1 : k = (s, g) := congrArg Prod.fst hk2
      have hp1 : p = q := congrArg Prod.snd hk2
      subst hk1
      subst hp1
      exact hq

/-- The pathfinder states reachable through its public interface: a fresh
instance (empty cache), and any sequence of find_path, clear_cache and
reinitialize calls. -/
inductive Reachable : AStarPathfinder → Prop
  | init (w : WorldState) (mi : ℤ) :
      Reachable { world_state := w, max_iterations := mi }
  | find (pf : AStarPathfinder) (s g : Pos) (h : Reachable pf) :
      Reachable (pf.find_path s g).2
  | clear (pf : AStarPathfinder) (h : Reachable pf) : Reachable pf.clear_cache
  | reinit (pf : AStarPathfinder) (w : WorldState) (h : Reachable pf) :
      Reachable (pf.reinitialize w)

/-- Every reachable pathfinder satisfies the cache-endpoint invariant. -/
theorem reachable_cacheOK (pf : AStarPathfinder) (hr : Reachable pf) : CacheOK pf := by
  induction hr with
  | init w mi =>
    intro k p hk
    cases hk
  | find pf s g h ih => exact find_path_cacheOK pf s g ih
  | clear pf h ih =>
    intro k p hk
    cases hk
  | reinit pf w h ih =>
    intro k p hk
    cases hk

/-- C8: on any reachable pathfinder, every path find_path returns —
fresh from the search or served from the cache — is nonempty, starts at
the requested start and ends at the requested goal; reconstruction walks
parent links back to the parentless start node and reverses. -/
theorem C8_endpoint_inclusion (pf : AStarPathfinder) (hr : Reachable pf) (s g : Pos)
    (p : List Pos) (h : (pf.find_path s g).1 = some p) :
    p ≠ [] ∧ p.head? = some s ∧ p.getLast? = some g := by
  cases hc : lookupCache pf.path_cache (s, g) with
  | some q =>
    have hq : (pf.find_path s g).1 = some q := by
      unfold AStarPathfinder.find_path
      rw [hc]
    rw [hq] at h
    have hqp : q = p := Option.some_inj.mp h
    subst hqp
    exact reachable_cacheOK pf hr (s, g) q (lookupCache_mem _ _ _ hc)
  | none => exact find_path_fresh_some pf s g p hc h

/-- Witness for C8: the diagonal path returned on the freshly
initialized flat 5x5x1 pathfinder has the right endpoints. -/
theorem C8_endpoint_inclusion_witness :
    diagPath5 ≠ [] ∧ diagPath5.head? = some (0, 0, 0) ∧ diagPath5.getLast? = some (4, 4, 0) :=
  C8_endpoint_inclusion pf5 (Reachable.init (flatWorld 5 1) 1000) (0, 0, 0) (4, 4, 0)
    diagPath5 (by with_unfolding_all decide)

/-- The search loop with the stale-duplicate skip branch (source lines
66-67) removed: popped nodes are closed and expanded unconditionally. -/
def searchLoopNoSkip (pf : AStarPathfinder) (goal : Pos) : ℕ → SearchState → Option (List Pos)
  | 0, _ => none
  | fuel + 1, st =>
    match heappop (nodeLt st.store) st.open_set with
    | none => none
    | some (curId, rest) =>
      let cur := getNode st.store curId
      let st1 : SearchState :=
        { st with open_set := rest, closed_set := cur.position :: st.closed_set }
      if cur.position = goal then
        some (reconstructPath st1.store curId)
      else
        searchLoopNoSkip pf goal fuel
          ((pf.getNeighbors cur.position).foldl (processNeighbor pf goal curId) st1)

/-- C10: under the search invariant — which the initial state of every
find_path call satisfies — the loop never pops a node whose position is
already closed, so deleting the stale-duplicate skip branch does not
change the loop's result; moreover the positions of the heap's entries
are pairwise distinct, i.e. each position is pushed at most once and a
cheaper route only mutates the indexed node in place. -/
theorem C10_no_stale_pops :
    (∀ (pf : AStarPathfinder) (start goal : Pos) (fuel : ℕ) (st : SearchState),
      StateInv start st → searchLoop pf goal fuel st = searchLoopNoSkip pf goal fuel st) ∧
    (∀ start goal : Pos, StateInv start (initState start goal)) ∧
    (∀ (start : Pos) (st : SearchState), StateInv start st →
      (st.open_set.map (fun i => (getNode st.store i).position)).Nodup) := by
  refine ⟨?_, initState_inv, ?_⟩
  · intro pf start goal fuel
    induction fuel with
    | zero =>
      intro st _
      rfl
    | succ fuel ih =>
      intro st hinv
      rw [searchLoop, searchLoopNoSkip]
      cases hp : heappop (nodeLt st.store) st.open_set with
      | none => rfl
      | some pr =>
        obtain ⟨x, rest⟩ := pr
        dsimp only
        obtain ⟨hxopen, hxlt, hxnc, hinv2⟩ := pop_inv start st hinv x rest hp
        rw [if_neg hxnc]
        by_cases hg : (getNode st.store x).position = goal
        · rw [if_pos hg, if_pos hg]
        · rw [if_neg hg, if_neg hg]
          obtain ⟨hinv3, _, _⟩ := foldl_processNeighbor_inv pf goal x start
            (pf.getNeighbors (getNode st.store x).position)
            { st with open_set := rest, closed_set := (getNode st.store x).position :: st.closed_set }
            hinv2 hxlt
          exact ih _ hinv3
  · intro start st hinv
    refine List.Nodup.map_on ?_ hinv.open_nodup
    intro i hi j hj hij
    have h1 := hinv.map_complete i hi
    have h2 := hinv.map_complete j hj
    rw [hij] at h1
    rw [h1] at h2
    exact Option.some_inj.mp h2

/-- Witness for C10: on the flat 5x5x1 grid's initial search state the
two loops agree for the default budget. -/
theorem C10_no_stale_pops_witness :
    searchLoop pf5 (4, 4, 0) 1000 (initState (0, 0, 0) (4, 4, 0))
      = searchLoopNoSkip pf5 (4, 4, 0) 1000 (initState (0, 0, 0) (4, 4, 0)) :=
  C10_no_stale_pops.1 pf5 (0, 0, 0) (4, 4, 0) 1000 (initState (0, 0, 0) (4, 4, 0))
    (C10_no_stale_pops.2.1 (0, 0, 0) (4, 4, 0))
